import Mathlib

/-!
Shallow embedding of the metaflyer rule engine (TypeScript) in Lean 4.

Strings are modelled as `List Char` (`Str`).  JavaScript values occurring in
document frontmatter and ruleset configuration are modelled by `JsVal`
(strings, integers, booleans, arrays, null); `undefined` is modelled by the
absence of a key, i.e. `Option` at lookup sites.  JavaScript numbers are
modelled as `Int` (all numbers appearing in the program's logic are small
integers).  Strict equality `===` is modelled structurally by `jsEq`; note
that JS `===` on arrays is reference equality, so the structural model
over-approximates which array comparisons succeed — every theorem below
tolerates (and is strengthened by) this over-approximation.
-/

set_option autoImplicit false
set_option linter.unusedVariables false

abbrev Str := List Char

/-- JavaScript whitespace code points recognised by `String.prototype.trim`
and by the regex class `\s` (the subset relevant to this development:
tab, LF, VT, FF, CR, space, NBSP, BOM). -/
def isJsWs (c : Char) : Bool :=
  c.toNat = 32 || c.toNat = 9 || c.toNat = 10 || c.toNat = 11 ||
  c.toNat = 12 || c.toNat = 13 || c.toNat = 160 || c.toNat = 65279

/-- ASCII digit test, as in the regex class `[0-9]`. -/
def isDigitChar (c : Char) : Bool := 48 ≤ c.toNat && c.toNat ≤ 57

/-- Word-character test, as in the regex class `\w` = `[A-Za-z0-9_]`. -/
def isWordChar (c : Char) : Bool :=
  (65 ≤ c.toNat && c.toNat ≤ 90) || (97 ≤ c.toNat && c.toNat ≤ 122) ||
  isDigitChar c || c.toNat = 95

/-- Model of `String.prototype.trim`: drop whitespace from both ends. -/
def trimChars (s : Str) : Str :=
  ((s.dropWhile isJsWs).reverse.dropWhile isJsWs).reverse

/-- Model of `String.prototype.split(sep)` for a single-character separator. -/
def splitOnChar (sep : Char) : Str → List Str
  | [] => [[]]
  | c :: cs =>
    if c = sep then [] :: splitOnChar sep cs
    else
      match splitOnChar sep cs with
      | [] => [[c]]
      | p :: ps => (c :: p) :: ps

/-- Model of `Array.prototype.join(sep)` on a list of strings. -/
def joinWith (sep : Str) : List Str → Str
  | [] => []
  | [x] => x
  | x :: xs => x ++ sep ++ joinWith sep xs

/-- Decimal digit character (`0`–`9`); other inputs map to `*` (unreachable). -/
def digitChar : Nat → Char
  | 0 => '0' | 1 => '1' | 2 => '2' | 3 => '3' | 4 => '4'
  | 5 => '5' | 6 => '6' | 7 => '7' | 8 => '8' | 9 => '9'
  | _ => '*'

/-- Fuelled digit recursion: `fuel` bounds the number of digits, so the
entry point below, which passes `n + 1`, never exhausts it. -/
def natToCharsFuel : Nat → Nat → Str
  | 0, _ => []
  | fuel + 1, n =>
    if n < 10 then [digitChar n]
    else natToCharsFuel fuel (n / 10) ++ [digitChar (n % 10)]

/-- Decimal representation of a natural number, as `String(n)` produces. -/
def natToChars (n : Nat) : Str := natToCharsFuel (n + 1) n

/-- Decimal representation of an integer, as `String(i)` produces. -/
def intToChars (i : Int) : Str :=
  if i < 0 then '-' :: natToChars i.natAbs else natToChars i.natAbs

/-- Model of `String(n).padStart(2, '0')` for the natural number `n`. -/
def pad2 (n : Nat) : Str :=
  if (natToChars n).length < 2 then
    List.replicate (2 - (natToChars n).length) '0' ++ natToChars n
  else natToChars n

/-- First index (if any) at which `pat` occurs as a contiguous sublist of `s`;
models `String.prototype.indexOf` restricted to occurrence search. -/
def findSub (pat : Str) : Str → Option Nat
  | [] => none
  | c :: cs =>
    if pat.isPrefixOf (c :: cs) then some 0
    else (findSub pat cs).map (· + 1)

theorem findSub_lt_length {pat : Str} :
    ∀ {s : Str} {i : Nat}, findSub pat s = some i → i < s.length := by
  intro s
  induction s with
  | nil => intro i h; simp [findSub] at h
  | cons c cs ih =>
    intro i h
    simp only [findSub] at h
    split at h
    · cases h
      simp only [List.length_cons]
      omega
    · cases hf : findSub pat cs with
      | none => rw [hf] at h; simp at h
      | some j =>
        rw [hf] at h
        have hji : j + 1 = i := by simpa using h
        have hj := ih hf
        simp only [List.length_cons]
        omega

/-- Model of `String.prototype.replace(pat, rep)` with a plain-string pattern:
only the first occurrence is replaced. -/
def replaceFirst (s pat rep : Str) : Str :=
  match s with
  | [] => []
  | c :: cs =>
    if pat ≠ [] ∧ pat.isPrefixOf (c :: cs) then rep ++ (c :: cs).drop pat.length
    else c :: replaceFirst cs pat rep

/-- JavaScript-like values occurring in frontmatter and ruleset settings. -/
inductive JsVal where
  | str (s : Str)
  | num (n : Int)
  | bool (b : Bool)
  | arr (elems : List JsVal)
  | null

mutual

/-- Structural model of strict equality `===` (see the header note on arrays). -/
def jsEq : JsVal → JsVal → Bool
  | JsVal.str a, JsVal.str b => a == b
  | JsVal.num a, JsVal.num b => a == b
  | JsVal.bool a, JsVal.bool b => a == b
  | JsVal.null, JsVal.null => true
  | JsVal.arr xs, JsVal.arr ys => jsEqList xs ys
  | _, _ => false

/-- Pointwise structural equality of value lists (helper for `jsEq`). -/
def jsEqList : List JsVal → List JsVal → Bool
  | [], [] => true
  | x :: xs, y :: ys => jsEq x y && jsEqList xs ys
  | _, _ => false

end

/-- A parsed frontmatter object: an insertion-ordered key-value mapping with
unique keys.  A key that is absent models the JS value `undefined`. -/
abbrev Frontmatter := List (Str × JsVal)

/-- Model of `obj[key]`: `none` models `undefined`. -/
def jsLookup (fm : Frontmatter) (k : Str) : Option JsVal :=
  (fm.find? (fun kv => kv.1 == k)).map (·.2)

/-- Model of `obj.hasOwnProperty(key)`. -/
def containsKey (fm : Frontmatter) (k : Str) : Bool :=
  (jsLookup fm k).isSome

/-- Model of the assignment `obj[key] = v`: an existing key keeps its position,
a new key is appended (JS property insertion order). -/
def setKey (fm : Frontmatter) (k : Str) (v : JsVal) : Frontmatter :=
  if containsKey fm k then
    fm.map (fun kv => if kv.1 == k then (kv.1, v) else kv)
  else fm ++ [(k, v)]

mutual

/-- Model of `String(v)` on array elements: elements of an array being joined
render `null` (and `undefined`) as the empty string. -/
def jsToStringList : List JsVal → List Str
  | [] => []
  | JsVal.null :: xs => [] :: jsToStringList xs
  | x :: xs => jsToStringVal x :: jsToStringList xs

/-- Model of the JS conversion `String(v)`. -/
def jsToStringVal : JsVal → Str
  | JsVal.str s => s
  | JsVal.num n => intToChars n
  | JsVal.bool b => if b then String.toList "true" else String.toList "false"
  | JsVal.null => String.toList "null"
  | JsVal.arr xs => joinWith [','] (jsToStringList xs)

end

/-!
Data model from `src/core/settings.ts` (only the fields the core logic
reads are modelled) and the evaluation engine from
`src/core/ruleset-manager.ts`.
-/

/-- Field value types, from the union type of `MetadataField.type` in
`src/core/settings.ts` (`"string" | "array" | "date" | "number" | "boolean"`). -/
inductive FieldType where
  | string
  | array
  | date
  | number
  | boolean
deriving DecidableEq

/-- `MetadataField` from `src/core/settings.ts`. -/
structure MetadataField where
  name : Str
  type : FieldType
  format : Option Str
  required : Bool
deriving DecidableEq

/-- `Ruleset` from `src/core/settings.ts` restricted to the fields read by
the ruleset manager and the organizer. -/
structure Ruleset where
  name : Str
  metadata_match : List (Str × JsVal)
  metadata : List MetadataField
  title : Option Str
  path : Option Str

/-- `RuleEvaluation` from `src/core/ruleset-manager.ts`. -/
structure RuleEvaluation where
  ruleset : Option Ruleset
  «matches» : Bool
  missingFields : List Str
  isComplete : Bool

/-- JS truthiness of an optional string (`undefined` and `''` are falsy). -/
def jsTruthyStr : Option Str → Bool
  | none => false
  | some s => !s.isEmpty

/-- Exponent suffix of a JS decimal numeric literal: empty, or
`[eE][+-]?digits`. -/
def isExpOrEmpty : Str → Bool
  | [] => true
  | c :: r =>
    (c = 'e' || c = 'E') &&
      (let r' := match r with
        | '+' :: r2 => r2
        | '-' :: r2 => r2
        | r2 => r2
      !r'.isEmpty && r'.all isDigitChar)

/-- Unsigned decimal literal accepted by JS `Number`:
`digits[.digits][exp]`, `digits.[exp]` or `.digits[exp]`. -/
def isUnsignedDecimal (t : Str) : Bool :=
  let intPart := t.takeWhile isDigitChar
  let rest := t.dropWhile isDigitChar
  if intPart.isEmpty then
    match rest with
    | '.' :: r2 =>
      !(r2.takeWhile isDigitChar).isEmpty && isExpOrEmpty (r2.dropWhile isDigitChar)
    | _ => false
  else
    match rest with
    | [] => true
    | '.' :: r2 => isExpOrEmpty (r2.dropWhile isDigitChar)
    | r => isExpOrEmpty r

/-- Digits of a radix literal (`0x` / `0o` / `0b`) accepted by JS `Number`. -/
def isRadixLit (t : Str) : Bool :=
  match t with
  | '0' :: c :: rest =>
    ((c = 'x' || c = 'X') && !rest.isEmpty && rest.all (fun d =>
        isDigitChar d || (97 ≤ d.toNat && d.toNat ≤ 102) || (65 ≤ d.toNat && d.toNat ≤ 70))) ||
    ((c = 'o' || c = 'O') && !rest.isEmpty && rest.all (fun d => 48 ≤ d.toNat && d.toNat ≤ 55)) ||
    ((c = 'b' || c = 'B') && !rest.isEmpty && rest.all (fun d => d = '0' || d = '1'))
  | _ => false

/-- Model of `!isNaN(Number(s))`: the whitespace-trimmed string is empty
(`Number('') === 0`), an optionally signed decimal literal, an `Infinity`
literal, or a radix literal. -/
def jsStringIsNumeric (s : Str) : Bool :=
  let t := trimChars s
  t.isEmpty ||
  (match t with
    | '+' :: r => isUnsignedDecimal r
    | '-' :: r => isUnsignedDecimal r
    | r => isUnsignedDecimal r) ||
  t == String.toList "Infinity" || t == String.toList "+Infinity" ||
  t == String.toList "-Infinity" || isRadixLit t

/-- Emptiness test for one array element, from the `every` callback inside
`isFieldEmpty`: `item === null || item === undefined ||
(typeof item === 'string' && item.trim() === '')`. -/
def isBlankItem : JsVal → Bool
  | JsVal.null => true
  | JsVal.str s => (trimChars s).isEmpty
  | _ => false

/-- `RulesetManager.isFieldEmpty` from `src/core/ruleset-manager.ts`
(the identical copy also appears in `src/enforcement/metadata-enforcer.ts`).
The argument is `none` when the property is absent (`undefined`). -/
def isFieldEmpty (value : Option JsVal) (type : FieldType) : Bool :=
  match value with
  | none => true
  | some JsVal.null => true
  | some v =>
    match type with
    | FieldType.string =>
      match v with
      | JsVal.str s => (trimChars s).isEmpty
      | _ => true
    | FieldType.array =>
      match v with
      | JsVal.arr xs => xs.isEmpty || xs.all isBlankItem
      | _ => true
    | FieldType.date =>
      match v with
      | JsVal.str s => (trimChars s).isEmpty
      | _ => true
    | FieldType.number =>
      match v with
      | JsVal.num _ => false
      | JsVal.str s => !jsStringIsNumeric s
      | _ => true
    | FieldType.boolean =>
      match v with
      | JsVal.bool _ => false
      | _ => true

/-- `RulesetManager.matchesMetadataConditions`: every `metadata_match` entry
must be strictly equal (`===`) to the corresponding frontmatter value
(an absent key, i.e. `undefined`, never equals a condition value). -/
def matchesMetadataConditions (fm : Frontmatter) (conditions : List (Str × JsVal)) : Bool :=
  conditions.all (fun kv =>
    match jsLookup fm kv.1 with
    | some a => jsEq a kv.2
    | none => false)

/-- `RulesetManager.findMatchingRuleset`: first ruleset in declaration order
whose conditions all hold. -/
def findMatchingRuleset (fm : Frontmatter) (rulesets : List Ruleset) : Option Ruleset :=
  rulesets.find? (fun rs => matchesMetadataConditions fm rs.metadata_match)

/-- Validity of one trigger field, from the loop body of
`RulesetManager.hasValidTriggerFields`. -/
def triggerFieldValid (fm : Frontmatter) (kv : Str × JsVal) : Bool :=
  match jsLookup fm kv.1 with
  | none => false
  | some JsVal.null => false
  | some actual =>
    let expectedIsStr := match kv.2 with | JsVal.str _ => true | _ => false
    let expectedIsArr := match kv.2 with | JsVal.arr _ => true | _ => false
    let actualStrBad := match actual with
      | JsVal.str s => (trimChars s).isEmpty
      | _ => true
    let actualArrBad := match actual with
      | JsVal.arr xs => xs.isEmpty || xs.all isBlankItem
      | _ => true
    if expectedIsStr && actualStrBad then false
    else if expectedIsArr && actualArrBad then false
    else true

/-- `RulesetManager.hasValidTriggerFields`. -/
def hasValidTriggerFields (fm : Frontmatter) (rs : Ruleset) : Bool :=
  rs.metadata_match.all (triggerFieldValid fm)

/-- `RulesetManager.getInvalidTriggerFields`: the keys of the trigger fields
that fail the validity test, in declaration order. -/
def getInvalidTriggerFields (fm : Frontmatter) (rs : Ruleset) : List Str :=
  (rs.metadata_match.filter (fun kv => !triggerFieldValid fm kv)).map (·.1)

/-- `RulesetManager.getMissingFields`: names of required fields whose value
is empty for their declared type. -/
def getMissingFields (fm : Frontmatter) (rs : Ruleset) : List Str :=
  (rs.metadata.filter (fun f => f.required && isFieldEmpty (jsLookup fm f.name) f.type)).map
    (·.name)

/-- `RulesetManager.evaluateMetadata`.  The frontmatter argument is `none`
when the document has no parsed frontmatter (`!frontmatter`). -/
def evaluateMetadata (frontmatter : Option Frontmatter) (rulesets : List Ruleset) :
    RuleEvaluation :=
  match frontmatter with
  | none => ⟨none, false, [], false⟩
  | some fm =>
    match findMatchingRuleset fm rulesets with
    | some rs =>
      if !hasValidTriggerFields fm rs then
        ⟨some rs, false, getInvalidTriggerFields fm rs, false⟩
      else
        let missingFields := getMissingFields fm rs
        ⟨some rs, true, missingFields, missingFields.isEmpty⟩
    | none => ⟨none, false, [], false⟩

/-- Broken-down timestamp standing for a JS `Date` value.  `month` is the
1-based calendar month (the source always uses `getMonth() + 1`); the
local/UTC frame distinction of a real `Date` is outside this model. -/
structure JsDate where
  year : Nat
  month : Nat
  day : Nat
  hour : Nat
  minute : Nat

/-- `RulesetManager.formatDate` (the identical pattern also implements
`PlaceholderProcessor.formatDateValue`): each token is replaced with
`String.prototype.replace(string, string)`, i.e. first occurrence only,
in the order `YYYY`, `MM`, `DD`, `hh`, `mm`, `a`. -/
def formatDate (date : JsDate) (format : Str) : Str :=
  let hours12 := if date.hour % 12 = 0 then 12 else date.hour % 12
  let ampm := if date.hour ≥ 12 then String.toList "pm" else String.toList "am"
  replaceFirst
    (replaceFirst
      (replaceFirst
        (replaceFirst
          (replaceFirst
            (replaceFirst format (String.toList "YYYY") (natToChars date.year))
            (String.toList "MM") (pad2 date.month))
          (String.toList "DD") (pad2 date.day))
        (String.toList "hh") (pad2 hours12))
      (String.toList "mm") (pad2 date.minute))
    (String.toList "a") ampm

/-- Model of `new Date().toISOString().split('T')[0]`: the padded calendar
date `YYYY-MM-DD`. -/
def toISODateString (d : JsDate) : Str :=
  pad2 d.year ++ ['-'] ++ pad2 d.month ++ ['-'] ++ pad2 d.day

/-- `RulesetManager.getDefaultValue`, with the current timestamp passed
explicitly (`new Date()` in the source).  `if (field.format)` is a JS
truthiness test, so an empty format string falls back to the ISO date. -/
def getDefaultValue (field : MetadataField) (now : JsDate) : JsVal :=
  match field.type with
  | FieldType.string => JsVal.str []
  | FieldType.array => JsVal.arr []
  | FieldType.date =>
    if jsTruthyStr field.format then JsVal.str (formatDate now (field.format.getD []))
    else JsVal.str (toISODateString now)
  | FieldType.number => JsVal.num 0
  | FieldType.boolean => JsVal.bool false

/-- One step of the `autoPopulateMetadata` loop: a declared field that is
absent or empty (for its type) is overwritten with its default. -/
def autoPopulateStep (now : JsDate) (acc : Frontmatter) (field : MetadataField) :
    Frontmatter :=
  if !containsKey acc field.name || isFieldEmpty (jsLookup acc field.name) field.type then
    setKey acc field.name (getDefaultValue field now)
  else acc

/-- `RulesetManager.autoPopulateMetadata`, with the current timestamp passed
explicitly. -/
def autoPopulateMetadata (now : JsDate) (fm : Frontmatter) (rs : Ruleset) : Frontmatter :=
  rs.metadata.foldl (autoPopulateStep now) fm

/-- `MetadataEnforcer.shouldAutoPopulate`: inside the loop over trigger
fields, the first field whose frontmatter value strictly equals the expected
value decides the result; `hasMissingRequiredFields` ignores the field. -/
def hasMissingRequiredFields (fm : Frontmatter) (rs : Ruleset) : Bool :=
  rs.metadata.any (fun f => f.required && !containsKey fm f.name)

/-- Loop of `MetadataEnforcer.shouldAutoPopulate` over the trigger fields. -/
def shouldAutoPopulateLoop (fm? : Option Frontmatter) (rs : Ruleset) :
    List (Str × JsVal) → Bool
  | [] => false
  | kv :: rest =>
    match fm? with
    | none => shouldAutoPopulateLoop fm? rs rest
    | some fm =>
      if containsKey fm kv.1 &&
          (match jsLookup fm kv.1 with
            | some a => jsEq a kv.2
            | none => false) then
        hasMissingRequiredFields fm rs
      else shouldAutoPopulateLoop fm? rs rest

/-- `MetadataEnforcer.shouldAutoPopulate` from
`src/enforcement/metadata-enforcer.ts`. -/
def shouldAutoPopulate (fm? : Option Frontmatter) (ev : RuleEvaluation) : Bool :=
  if !ev.matches then false
  else
    match ev.ruleset with
    | none => false
    | some rs => shouldAutoPopulateLoop fm? rs rs.metadata_match

/-!
Template engine from `src/core/placeholder-processor.ts` and the organizer
from the auto-organizer module (`organizeNote`, `handleCollisions`).
-/

/-- Model of `new Date(string)` restricted to the ISO calendar-date form
`YYYY-MM-DD` used by the spec and the shipped defaults; a date-only string
is treated as midnight (per the spec) and any other string fails to parse.
The local/UTC frame conversion of real JS `Date` parsing is outside this
model. -/
def jsParseDate (s : Str) : Option JsDate :=
  match s with
  | [y1, y2, y3, y4, '-', m1, m2, '-', d1, d2] =>
    if [y1, y2, y3, y4, m1, m2, d1, d2].all isDigitChar then
      some ⟨(y1.toNat - 48) * 1000 + (y2.toNat - 48) * 100 + (y3.toNat - 48) * 10 +
              (y4.toNat - 48),
            (m1.toNat - 48) * 10 + (m2.toNat - 48),
            (d1.toNat - 48) * 10 + (d2.toNat - 48), 0, 0⟩
    else none
  | _ => none

/-- `PlaceholderProcessor.formatDateValue`: strings are parsed as dates
(falling back to the string itself when unparseable); non-string, non-`Date`
values fall back to `String(value)`. -/
def formatDateValue (value : JsVal) (format : Str) : Str :=
  match value with
  | JsVal.str s =>
    match jsParseDate s with
    | some d => formatDate d format
    | none => s
  | v => jsToStringVal v

/-- Length bound used by the termination arguments of the scanners below. -/
theorem dropWhile_length_le (p : Char → Bool) :
    ∀ l : Str, (l.dropWhile p).length ≤ l.length := by
  intro l
  induction l with
  | nil => simp [List.dropWhile]
  | cons c cs ih =>
    by_cases h : p c
    · simp only [List.dropWhile, h, List.length_cons]
      omega
    · simp [List.dropWhile, h]

/-- Fuelled scan for `stripDoubleBrackets`. -/
def stripDoubleFuel : Nat → Str → Str
  | 0, s => s
  | fuel + 1, s =>
    match s with
    | '[' :: '[' :: rest =>
      (match rest.dropWhile (· ≠ ']') with
        | ']' :: ']' :: tail =>
          if (rest.takeWhile (· ≠ ']')).isEmpty then '[' :: stripDoubleFuel fuel ('[' :: rest)
          else rest.takeWhile (· ≠ ']') ++ stripDoubleFuel fuel tail
        | _ => '[' :: stripDoubleFuel fuel ('[' :: rest))
    | c :: cs => c :: stripDoubleFuel fuel cs
    | [] => []

/-- Pass removing `[[text]]` wrappers, from the first regex replace in
`PlaceholderProcessor.stripSymbols` (`/\[\[([^\]]+)\]\]/g` → `$1`): a failed
match attempt advances one character, a successful one continues after the
match.  Every step consumes at least one character, so the entry fuel (the
string length) never runs out. -/
def stripDoubleBrackets (s : Str) : Str := stripDoubleFuel s.length s

/-- Fuelled scan for `stripSingleWrap`. -/
def stripSingleFuel (op cl : Char) : Nat → Str → Str
  | 0, s => s
  | fuel + 1, s =>
    match s with
    | [] => []
    | c :: cs =>
      if c = op then
        match cs.dropWhile (· ≠ cl) with
        | _ :: tail =>
          if (cs.takeWhile (· ≠ cl)).isEmpty then c :: stripSingleFuel op cl fuel cs
          else cs.takeWhile (· ≠ cl) ++ stripSingleFuel op cl fuel tail
        | [] => c :: stripSingleFuel op cl fuel cs
      else c :: stripSingleFuel op cl fuel cs

/-- Pass removing a single-character wrapper pair (`[x]`, `(x)`, `{x}`), from
the corresponding regex replaces in `PlaceholderProcessor.stripSymbols`.
Every step consumes at least one character, so the entry fuel (the string
length) never runs out. -/
def stripSingleWrap (op cl : Char) (s : Str) : Str := stripSingleFuel op cl s.length s

/-- Characters deleted by the symbol-removal replace in `stripSymbols`
(`/[@#*_~`|\\\/]/g`; code point 96 is the backquote). -/
def isStripSymbol (c : Char) : Bool :=
  c = '@' || c = '#' || c = '*' || c = '_' || c = '~' || c.toNat = 96 ||
  c = '|' || c = '\\' || c = '/'

/-- Fuelled scan for `collapseWs`; every step consumes at least one
character, so the entry point's fuel (the string length) never runs out. -/
def collapseWsFuel : Nat → Str → Str
  | 0, s => s
  | fuel + 1, s =>
    match s with
    | [] => []
    | c :: cs =>
      if isJsWs c then ' ' :: collapseWsFuel fuel (cs.dropWhile isJsWs)
      else c :: collapseWsFuel fuel cs

/-- Model of `.replace(/\s+/g, ' ')`: collapse each whitespace run to one
space. -/
def collapseWs (s : Str) : Str := collapseWsFuel s.length s

/-- `PlaceholderProcessor.stripSymbols`. -/
def stripSymbols (text : Str) : Str :=
  trimChars (collapseWs
    ((stripSingleWrap '{' '}'
        (stripSingleWrap '(' ')'
          (stripSingleWrap '[' ']' (stripDoubleBrackets text)))).filter
      (fun c => !isStripSymbol c)))

/-- `PlaceholderProcessor.sanitizeForFilename`: strip the reserved filename
characters, collapse whitespace, trim. -/
def isBadFilenameChar (c : Char) : Bool :=
  c = '<' || c = '>' || c = ':' || c = '"' || c = '/' || c = '\\' ||
  c = '|' || c = '?' || c = '*'

/-- `PlaceholderProcessor.sanitizeForFilename`. -/
def sanitizeForFilename (text : Str) : Str :=
  trimChars (collapseWs (text.filter (fun c => !isBadFilenameChar c)))

/-- `PlaceholderProcessor.sanitizeForPath`: sanitize each `/`-segment, drop
empty segments, rejoin. -/
def sanitizeForPath (path : Str) : Str :=
  joinWith ['/'] (((splitOnChar '/' path).map sanitizeForFilename).filter
    (fun s => !s.isEmpty))

/-- Replacement value for one placeholder, from the callback passed to
`result.replace(/\{([^}]+)\}/g, ...)` in
`PlaceholderProcessor.processPlaceholders`.  `content` is the captured text
between the braces and `matchText` the whole match; `file` carries the
creation timestamp of the optional `file` argument (`file.stat.ctime`). -/
def placeholderValue (fm : Frontmatter) (file : Option JsDate)
    (content matchText : Str) : Str :=
  let parts := splitOnChar ':' content
  let fieldName := trimChars (parts.headD [])
  let modifier : Option Str := ((parts.drop 1).head?).map trimChars
  let modTruthy := match modifier with | some m => !m.isEmpty | none => false
  if fieldName = String.toList "created" then
    match file with
    | some ctime =>
      if modTruthy then formatDate ctime (modifier.getD [])
      else formatDate ctime (String.toList "YYYY-MM-DD")
    | none => matchText
  else
    match jsLookup fm fieldName with
    | none => matchText
    | some value =>
      if fieldName = String.toList "date" && modTruthy &&
          !(modifier.getD [] == String.toList "strip") then
        formatDateValue value (modifier.getD [])
      else
        match value with
        | JsVal.arr elems =>
          joinWith (String.toList ", ")
            ((jsToStringList elems).map (fun sv =>
              if modifier.getD [] == String.toList "strip" then stripSymbols sv else sv))
        | v =>
          let sv := jsToStringVal v
          if modifier.getD [] == String.toList "strip" then stripSymbols sv else sv

/-- Fuelled scan for the substitution driver. -/
def processGoFuel (fm : Frontmatter) (file : Option JsDate) : Nat → Str → Str
  | 0, s => s
  | fuel + 1, s =>
    match s with
    | [] => []
    | '{' :: rest =>
      (match rest.dropWhile (· ≠ '}') with
        | '}' :: tail =>
          if (rest.takeWhile (· ≠ '}')).isEmpty then
            '{' :: '}' :: processGoFuel fm file fuel tail
          else
            placeholderValue fm file (rest.takeWhile (· ≠ '}'))
                ('{' :: rest.takeWhile (· ≠ '}') ++ ['}']) ++
              processGoFuel fm file fuel tail
        | _ => '{' :: rest)
    | c :: cs => c :: processGoFuel fm file fuel cs

/-- Substitution driver of `processPlaceholders`: the regex
`/\{([^}]+)\}/g` matches from each `{` to the first following `}` with a
non-empty capture; unmatched text is copied through.  Every step consumes at
least one character, so the entry fuel (the template length) never runs
out. -/
def processPlaceholdersGo (fm : Frontmatter) (file : Option JsDate) (s : Str) : Str :=
  processGoFuel fm file s.length s

/-- `PlaceholderProcessor.processPlaceholders` (`!template` short-circuits to
the empty string). -/
def processPlaceholders (template : Str) (fm : Frontmatter)
    (file : Option JsDate) : Str :=
  if template.isEmpty then [] else processPlaceholdersGo fm file template

/-- Title computation of `AutoOrganizer.organizeNote`: when the ruleset has a
(truthy) title template it is resolved and sanitized, otherwise the current
basename is kept. -/
def organizeTitle (rs : Ruleset) (fm : Frontmatter) (basename : Str) : Str :=
  if jsTruthyStr rs.title then
    sanitizeForFilename (processPlaceholders (rs.title.getD []) fm none)
  else basename

/-- Directory computation of `AutoOrganizer.organizeNote`: when the ruleset
has a (truthy) path template it is resolved and sanitized, otherwise the
current parent path is kept. -/
def organizeDir (rs : Ruleset) (fm : Frontmatter) (parentPath : Str) : Str :=
  if jsTruthyStr rs.path then
    sanitizeForPath (processPlaceholders (rs.path.getD []) fm none)
  else parentPath

/-- Loop body of `AutoOrganizer.handleCollisions`: rebuild the numbered
candidate `dir/name counter.md` from the desired path. -/
def collisionStep (desiredPath : Str) (counter : Nat) : Str :=
  let pathParts := splitOnChar '/' desiredPath
  let filename := pathParts.getLast?.getD []
  let directory := joinWith ['/'] pathParts.dropLast
  let nameWithoutExt :=
    if (String.toList ".md").isSuffixOf filename then filename.take (filename.length - 3) else filename
  let numberedName := nameWithoutExt ++ [' '] ++ natToChars counter ++ String.toList ".md"
  if !directory.isEmpty then directory ++ ['/'] ++ numberedName else numberedName

/-- `AutoOrganizer.handleCollisions` with an explicit existence predicate
(the source calls `vault.getAbstractFileByPath`) and explicit fuel: the
source's `while` loop re-checks existence of each numbered candidate in
turn, so it terminates exactly when some candidate does not exist, which the
fuel makes observable (`none` means the loop was still running after `fuel`
checks). -/
def handleCollisionsFuel (existsFn : Str → Bool) (desiredPath : Str) :
    Nat → Str → Nat → Option Str
  | 0, _, _ => none
  | fuel + 1, finalPath, counter =>
    if existsFn finalPath then
      handleCollisionsFuel existsFn desiredPath fuel (collisionStep desiredPath counter)
        (counter + 1)
    else some finalPath

/-- `AutoOrganizer.handleCollisions` (entry point: the loop starts at the
desired path with counter 1). -/
def handleCollisions (existsFn : Str → Bool) (desiredPath : Str) (fuel : Nat) :
    Option Str :=
  handleCollisionsFuel existsFn desiredPath fuel desiredPath 1

/-!
Marker scanner and navigator from the placeholder-marker module
(`findAllMarkers`, `navigateToMarker`).
-/

/-- `MarkerPosition` from the placeholder-marker module. -/
structure MarkerPosition where
  fromPos : Nat
  toPos : Nat
  content : Str
  fullText : Str
deriving DecidableEq

/-- Fuelled scan for `execMarkers`. -/
def execMarkersFuel : Nat → Str → Nat → List (Nat × Str)
  | 0, _, _ => []
  | fuel + 1, s, i =>
    match s with
    | [] => []
    | c :: cs =>
      if c = '<' then
        match cs with
        | '[' :: rest =>
          (match rest.dropWhile isWordChar with
            | ']' :: '>' :: tail =>
              if (rest.takeWhile isWordChar).isEmpty then execMarkersFuel fuel cs (i + 1)
              else
                (i, rest.takeWhile isWordChar) ::
                  execMarkersFuel fuel tail (i + (rest.takeWhile isWordChar).length + 4)
            | _ => execMarkersFuel fuel cs (i + 1))
        | _ => execMarkersFuel fuel cs (i + 1)
      else execMarkersFuel fuel cs (i + 1)

/-- Matches of the regex `/<\[(\w+)\]>/g` on one line, as produced by the
`MARKER_REGEX.exec` loop: each entry is the match index (relative to the
line) and the captured word; on failure the scan advances one character,
after a match it continues at the match end.  Every step consumes at least
one character, so the entry fuel (the line length) never runs out. -/
def execMarkers (s : Str) (i : Nat) : List (Nat × Str) := execMarkersFuel s.length s i

/-- Fuelled loop for `countUnclosed`. -/
def countUnclosedFuel : Nat → Str → Nat → Nat
  | 0, _, openCount => openCount
  | fuel + 1, s, openCount =>
    match findSub (String.toList "<[") s, findSub (String.toList "]>") s with
    | none, _ => openCount
    | some oi, none => countUnclosedFuel fuel (s.drop (oi + 2)) (openCount + 1)
    | some oi, some ci =>
      if oi < ci then countUnclosedFuel fuel (s.drop (oi + 2)) (openCount + 1)
      else
        countUnclosedFuel fuel (s.drop (ci + 2))
          (if openCount > 0 then openCount - 1 else openCount)

/-- Running unclosed-`<[` balance from the nesting check in
`findAllMarkers`: the `while` loop over `beforeMarker` advances past the
earlier of the next `<[` / `]>` occurrence, incrementing or (when positive)
decrementing the balance.  Every iteration advances the position by at least
two characters, so the entry fuel (the text length) never runs out. -/
def countUnclosed (s : Str) (openCount : Nat) : Nat :=
  countUnclosedFuel s.length s openCount

/-- Markers of one line at document offset `lineFrom`: regex candidates that
pass the innermost check (`openCount === 0` over the text before the
match). -/
def findMarkersInLine (lineText : Str) (lineFrom : Nat) : List MarkerPosition :=
  (execMarkers lineText 0).filterMap (fun m =>
    if countUnclosed (lineText.take m.1) 0 = 0 then
      some ⟨lineFrom + m.1, lineFrom + m.1 + m.2.length + 4, m.2,
            '<' :: '[' :: m.2 ++ String.toList "]>"⟩
    else none)

/-- Per-line scan of the document: line `i + 1` starts one character (the
newline) after line `i` ends; lines inside code regions are skipped. -/
def markersOfLines (isInCode : Nat → Bool) : List Str → Nat → List MarkerPosition
  | [], _ => []
  | l :: ls, off =>
    (if isInCode off then [] else findMarkersInLine l off) ++
      markersOfLines isInCode ls (off + l.length + 1)

/-- Insertion step of the final `sort((a, b) => a.from - b.from)`. -/
def insertByFrom (m : MarkerPosition) : List MarkerPosition → List MarkerPosition
  | [] => [m]
  | x :: xs => if m.fromPos ≤ x.fromPos then m :: x :: xs else x :: insertByFrom m xs

/-- Ascending sort by start offset. -/
def sortByFrom (ms : List MarkerPosition) : List MarkerPosition :=
  ms.foldr insertByFrom []

/-- `findAllMarkers` from the placeholder-marker module, over the raw
document text; the host editor's syntax-tree test `isInsideCodeBlock` is
the injected predicate `isInCode` on line-start offsets. -/
def findAllMarkers (text : Str) (isInCode : Nat → Bool) : List MarkerPosition :=
  sortByFrom (markersOfLines isInCode (splitOnChar '\n' text) 0)

/-- Direction argument of `navigateToMarker`. -/
inductive NavDirection where
  | next
  | prev
deriving DecidableEq

/-- Model of `Array.prototype.findIndex` (`-1` when no element matches). -/
def jsFindIndex {α : Type} (p : α → Bool) : List α → Int
  | [] => -1
  | x :: xs =>
    if p x then 0
    else
      let r := jsFindIndex p xs
      if r = -1 then -1 else r + 1

/-- Model of the downward `for` scan in `navigateToMarker`'s `prev` branch:
greatest index whose element matches, `-1` when none does. -/
def jsFindLastIndex {α : Type} (p : α → Bool) : List α → Int
  | [] => -1
  | x :: xs =>
    let r := jsFindLastIndex p xs
    if r ≠ -1 then r + 1 else if p x then 0 else -1

/-- `navigateToMarker` from the placeholder-marker module, factored over the
marker list (the source recomputes it with `findAllMarkers`) and the current
selection `(from, to)`; `none` models the `return false` (no navigation). -/
def navigateToMarker (markers : List MarkerPosition) (sel : Nat × Nat)
    (direction : NavDirection) : Option MarkerPosition :=
  if markers.length = 0 then none
  else
    let targetIndex : Int :=
      match direction with
      | NavDirection.next =>
        let ti := jsFindIndex (fun m => decide (sel.2 < m.fromPos)) markers
        if ti = -1 then 0 else ti
      | NavDirection.prev =>
        let ti := jsFindLastIndex (fun m => decide (m.toPos < sel.1)) markers
        if ti = -1 then (markers.length : Int) - 1 else ti
    markers[targetIndex.toNat]?

/-!
Concrete fixtures used by several claims.
-/

/-- Convenient timestamp fixture: 2024-01-15 00:00 local. -/
def jan15 : JsDate := ⟨2024, 1, 15, 0, 0⟩

/-- The shipped default O3 ruleset from `DEFAULT_SETTINGS` in
`src/core/settings.ts`, restricted to the modelled fields. -/
def o3Ruleset : Ruleset :=
  ⟨String.toList "O3",
   [(String.toList "type", JsVal.str (String.toList "O3"))],
   [⟨String.toList "attendees", FieldType.array, none, true⟩,
    ⟨String.toList "date", FieldType.date, some (String.toList "YYYY-MM-DD"), true⟩],
   some (String.toList "{attendees} O3 - {date:YYYY-MM-DD hh:mma}"),
   some (String.toList "Areas/Work/O3s/{attendees}")⟩

/-- Scenario metadata `{type:"O3", attendees:["Alice","Bob"], date:"2024-01-15"}`. -/
def o3Metadata : Frontmatter :=
  [(String.toList "type", JsVal.str (String.toList "O3")),
   (String.toList "attendees",
    JsVal.arr [JsVal.str (String.toList "Alice"), JsVal.str (String.toList "Bob")]),
   (String.toList "date", JsVal.str (String.toList "2024-01-15"))]

/-- The nesting example of the spec, rendered in the implementation's
delimiter grammar. -/
def nestedMarkerText : Str := String.toList "<[outer_<[inner]>_marker]>"

/-- C3: the claim says the scanner returns exactly one marker (the inner
one) on the nested example; in fact the inner candidate starts with running
open balance 1 (the outer `<[` before it is unclosed within the prefix), so
the innermost filter drops it and the scanner returns no markers at all. -/
theorem C3_counterexample :
    ¬ ((findAllMarkers nestedMarkerText (fun _ => false)).length = 1) := by
  decide

/-- C3 (amended): on the single nested marker pair the scanner returns no
markers: the outer pair never matches the token grammar (its interior is not
all word characters) and the inner candidate is excluded by the running
open-balance rule, which counts the outer opening delimiter as unclosed at
the candidate's start. -/
theorem C3_amended_no_marker :
    findAllMarkers nestedMarkerText (fun _ => false) = [] := by
  decide

/-- C4: evaluating the organizer at the scenario input shows the divergence:
the callback splits the placeholder on every colon, so the modifier of
`{date:YYYY-MM-DD hh:mma}` is truncated to `YYYY-MM-DD hh` (the `:mma` part
is dropped) and the resolved title ends in `12` instead of the documented
`12:00am`; the directory agrees with the claim. -/
theorem C4_code_divergence :
    organizeTitle o3Ruleset o3Metadata (String.toList "Untitled") =
      String.toList "Alice, Bob O3 - 2024-01-15 12" ∧
    organizeTitle o3Ruleset o3Metadata (String.toList "Untitled") ≠
      String.toList "Alice, Bob O3 - 2024-01-15 12:00am" ∧
    organizeDir o3Ruleset o3Metadata [] = String.toList "Areas/Work/O3s/Alice, Bob" := by
  exact ⟨by decide, by decide, by decide⟩

/-!
C5: evaluation returns the first ruleset in declaration order whose match
conditions all hold, and empty match conditions hold for every document.
-/

/-- C5: for present metadata the surfaced ruleset is always the first
ruleset, in declaration order, all of whose `metadata_match` entries are
strictly equal to the corresponding metadata values (this holds in both the
valid and the invalid-trigger outcome), and an empty `metadata_match`
mapping matches every document. -/
theorem C5_first_match_wins (fm : Frontmatter) (rulesets : List Ruleset) :
    (evaluateMetadata (some fm) rulesets).ruleset =
      rulesets.find? (fun rs =>
        rs.metadata_match.all (fun kv =>
          match jsLookup fm kv.1 with
          | some a => jsEq a kv.2
          | none => false)) ∧
    ∀ fm' : Frontmatter, matchesMetadataConditions fm' [] = true := by
  constructor
  · have hdef :
        rulesets.find? (fun rs =>
          rs.metadata_match.all (fun kv =>
            match jsLookup fm kv.1 with
            | some a => jsEq a kv.2
            | none => false)) = findMatchingRuleset fm rulesets := rfl
    rw [hdef]
    cases h : findMatchingRuleset fm rulesets with
    | none => simp [evaluateMetadata, h]
    | some rs =>
      simp only [evaluateMetadata, h]
      by_cases hv : hasValidTriggerFields fm rs
      · simp [hv]
      · simp [hv]
  · intro fm'
    rfl

/-!
C7: navigation semantics, via index/`find?` correspondence lemmas for the
JS-style index searches.
-/

theorem jsFindIndex_spec {α : Type} (p : α → Bool) :
    ∀ l : List α,
      (jsFindIndex p l = -1 ∧ l.find? p = none) ∨
      (∃ n : Nat, jsFindIndex p l = (n : Int) ∧ l[n]? = l.find? p ∧
        (l.find? p).isSome = true) := by
  intro l
  induction l with
  | nil => exact Or.inl ⟨rfl, rfl⟩
  | cons x xs ih =>
    by_cases hx : p x
    · refine Or.inr ⟨0, ?_, ?_, ?_⟩
      · simp [jsFindIndex, hx]
      · simp [List.find?_cons_of_pos xs hx]
      · simp [List.find?_cons_of_pos xs hx]
    · have hfind : (x :: xs).find? p = xs.find? p := List.find?_cons_of_neg xs (by simpa using hx)
      cases ih with
      | inl h =>
        refine Or.inl ⟨?_, ?_⟩
        · simp [jsFindIndex, hx, h.1]
        · rw [hfind, h.2]
      | inr h =>
        obtain ⟨n, h1, h2, h3⟩ := h
        refine Or.inr ⟨n + 1, ?_, ?_, ?_⟩
        · have hne : (n : Int) ≠ -1 := by omega
          simp only [jsFindIndex, hx, if_false, h1, hne]
          push_cast
          ring
        · rw [hfind, List.getElem?_cons_succ, h2]
        · rw [hfind]
          exact h3
  
theorem jsFindLastIndex_spec {α : Type} (p : α → Bool) :
    ∀ l : List α,
      (jsFindLastIndex p l = -1 ∧ l.reverse.find? p = none) ∨
      (∃ n : Nat, jsFindLastIndex p l = (n : Int) ∧ l[n]? = l.reverse.find? p ∧
        (l.reverse.find? p).isSome = true) := by
  intro l
  induction l with
  | nil => exact Or.inl ⟨rfl, rfl⟩
  | cons x xs ih =>
    have hrev : (x :: xs).reverse.find? p = (xs.reverse.find? p).or ([x].find? p) := by
      rw [List.reverse_cons, List.find?_append]
    cases ih with
    | inl h =>
      by_cases hx : p x
      · refine Or.inr ⟨0, ?_, ?_, ?_⟩
        · simp [jsFindLastIndex, h.1, hx]
        · rw [hrev, h.2]
          simp [List.find?, hx]
        · rw [hrev, h.2]
          simp [List.find?, hx]
      · refine Or.inl ⟨?_, ?_⟩
        · simp [jsFindLastIndex, h.1, hx]
        · rw [hrev, h.2]
          simp [List.find?, hx]
    | inr h =>
      obtain ⟨n, h1, h2, h3⟩ := h
      have hor : (xs.reverse.find? p).or ([x].find? p) = xs.reverse.find? p :=
        Option.or_of_isSome h3
      refine Or.inr ⟨n + 1, ?_, ?_, ?_⟩
      · have hne : (n : Int) ≠ -1 := by omega
        simp only [jsFindLastIndex, h1, hne, ne_eq, not_false_eq_true, if_true]
        push_cast
        ring
      · rw [hrev, hor, List.getElem?_cons_succ, h2]
      · rw [hrev, hor]
        exact h3

/-- C7: `next` returns the first marker whose start offset is strictly
greater than the selection end, wrapping to the first marker overall;
`prev` returns the last marker whose end offset is strictly less than the
selection start (the last match of the reversed list), wrapping to the last
marker overall; and navigation fails (`none`) exactly on an empty marker
list. -/
theorem C7_navigation (markers : List MarkerPosition) (sel : Nat × Nat) :
    navigateToMarker markers sel NavDirection.next =
      ((markers.find? (fun m => decide (sel.2 < m.fromPos))).or markers.head?) ∧
    navigateToMarker markers sel NavDirection.prev =
      ((markers.reverse.find? (fun m => decide (m.toPos < sel.1))).or markers.getLast?) ∧
    (navigateToMarker markers sel NavDirection.next = none ↔ markers = []) ∧
    (navigateToMarker markers sel NavDirection.prev = none ↔ markers = []) := by
  have hnext : navigateToMarker markers sel NavDirection.next =
      ((markers.find? (fun m => decide (sel.2 < m.fromPos))).or markers.head?) := by
    by_cases hlen : markers.length = 0
    · have hm : markers = [] := List.length_eq_zero.mp hlen
      subst hm
      simp [navigateToMarker]
    · cases jsFindIndex_spec (fun m => decide (sel.2 < m.fromPos)) markers with
      | inl h =>
        simp only [navigateToMarker, hlen, if_false, h.1]
        simp only [if_true, Int.toNat_zero]
        rw [h.2, Option.none_or, ← List.head?_eq_getElem?]
      | inr h =>
        obtain ⟨n, h1, h2, h3⟩ := h
        have hne : (n : Int) ≠ -1 := by omega
        simp only [navigateToMarker, hlen, if_false, h1, hne, if_false, Int.toNat_natCast]
        rw [h2, Option.or_of_isSome h3]
  have hprev : navigateToMarker markers sel NavDirection.prev =
      ((markers.reverse.find? (fun m => decide (m.toPos < sel.1))).or markers.getLast?) := by
    by_cases hlen : markers.length = 0
    · have hm : markers = [] := List.length_eq_zero.mp hlen
      subst hm
      simp [navigateToMarker]
    · cases jsFindLastIndex_spec (fun m => decide (m.toPos < sel.1)) markers with
      | inl h =>
        simp only [navigateToMarker, hlen, if_false, h.1]
        simp only [if_true]
        have htn : ((markers.length : Int) - 1).toNat = markers.length - 1 := by omega
        rw [htn, h.2, Option.none_or, ← List.getLast?_eq_getElem? markers]
      | inr h =>
        obtain ⟨n, h1, h2, h3⟩ := h
        have hne : (n : Int) ≠ -1 := by omega
        simp only [navigateToMarker, hlen, if_false, h1, hne, if_false, Int.toNat_natCast]
        rw [h2, Option.or_of_isSome h3]
  refine ⟨hnext, hprev, ?_, ?_⟩
  · rw [hnext]
    cases markers with
    | nil => simp
    | cons m ms =>
      simp only [List.head?_cons]
      constructor
      · intro h
        cases hf : (m :: ms).find? (fun m => decide (sel.2 < m.fromPos)) <;>
          rw [hf] at h <;> simp [Option.or] at h
      · intro h
        cases h
  · rw [hprev]
    cases markers with
    | nil => simp
    | cons m ms =>
      have hlast : (m :: ms).getLast?.isSome = true := by
        rw [List.getLast?_eq_getElem? (m :: ms)]
        simp only [List.length_cons]
        have : ms.length + 1 - 1 < (m :: ms).length := by simp
        simp [List.getElem?_eq_getElem this]
      constructor
      · intro h
        cases hf : (m :: ms).reverse.find? (fun m => decide (m.toPos < sel.1)) <;>
          rw [hf] at h
        · cases hl : (m :: ms).getLast? <;> rw [hl] at h
          · rw [hl] at hlast
            simp at hlast
          · simp [Option.or] at h
        · simp [Option.or] at h
      · intro h
        cases h

/-!
C8: the auto-population trigger.
-/

/-- The loop of `shouldAutoPopulate` succeeds exactly when the frontmatter
is present, some trigger field's value strictly equals its expected value,
and some required field's key is absent. -/
theorem shouldAutoPopulateLoop_iff (fm? : Option Frontmatter) (rs : Ruleset) :
    ∀ conds : List (Str × JsVal),
      shouldAutoPopulateLoop fm? rs conds = true ↔
        ∃ fm, fm? = some fm ∧
          (∃ kv ∈ conds, ∃ a, jsLookup fm kv.1 = some a ∧ jsEq a kv.2 = true) ∧
          hasMissingRequiredFields fm rs = true := by
  intro conds
  induction conds with
  | nil =>
    constructor
    · intro h
      simp only [shouldAutoPopulateLoop] at h
      cases h
    · rintro ⟨fm, hfm, ⟨kv, hkv, -⟩, -⟩
      cases hkv
  | cons kv rest ih =>
    cases fm? with
    | none =>
      simp only [shouldAutoPopulateLoop]
      rw [ih]
      constructor
      · rintro ⟨fm, hfm, -⟩
        cases hfm
      · rintro ⟨fm, hfm, -⟩
        cases hfm
    | some fm =>
      simp only [shouldAutoPopulateLoop]
      by_cases hc : (containsKey fm kv.1 &&
          (match jsLookup fm kv.1 with
            | some a => jsEq a kv.2
            | none => false)) = true
      · rw [if_pos hc]
        have hkv : ∃ a, jsLookup fm kv.1 = some a ∧ jsEq a kv.2 = true := by
          have hc' := hc
          rw [Bool.and_eq_true] at hc'
          obtain ⟨h1, h2⟩ := hc'
          cases hl : jsLookup fm kv.1 with
          | none =>
            rw [hl] at h2
            simp at h2
          | some a =>
            rw [hl] at h2
            exact ⟨a, rfl, h2⟩
        constructor
        · intro hmiss
          exact ⟨fm, rfl, ⟨kv, List.mem_cons_self kv rest, hkv⟩, hmiss⟩
        · rintro ⟨fm', hfm', -, hmiss⟩
          cases hfm'
          exact hmiss
      · rw [if_neg hc, ih]
        have hnkv : ¬ ∃ a, jsLookup fm kv.1 = some a ∧ jsEq a kv.2 = true := by
          rintro ⟨a, ha, he⟩
          apply hc
          rw [Bool.and_eq_true]
          refine ⟨by simp [containsKey, ha], ?_⟩
          rw [ha]
          exact he
        constructor
        · rintro ⟨fm', hfm', ⟨kv', hkv', hex⟩, hmiss⟩
          cases hfm'
          exact ⟨fm, rfl, ⟨kv', List.mem_cons_of_mem kv hkv', hex⟩, hmiss⟩
        · rintro ⟨fm', hfm', ⟨kv', hkv', hex⟩, hmiss⟩
          cases hfm'
          rcases List.mem_cons.mp hkv' with h | h
          · cases h
            exact absurd hex hnkv
          · exact ⟨fm, rfl, ⟨kv', h, hex⟩, hmiss⟩

/-- C8: auto-population is decided positively exactly when the evaluation
matched a ruleset, the (present) frontmatter strictly equals some trigger
field's expected value, and at least one required field's key is entirely
absent from the frontmatter; in particular a frontmatter in which every
required field's key is present — however empty the values — never triggers
auto-population. -/
theorem C8_autofill_trigger (fm? : Option Frontmatter) (ev : RuleEvaluation) :
    shouldAutoPopulate fm? ev = true ↔
      ev.matches = true ∧
      ∃ rs, ev.ruleset = some rs ∧
        ∃ fm, fm? = some fm ∧
          (∃ kv ∈ rs.metadata_match, ∃ a, jsLookup fm kv.1 = some a ∧ jsEq a kv.2 = true) ∧
          (∃ f ∈ rs.metadata, f.required = true ∧ containsKey fm f.name = false) := by
  constructor
  · intro h
    unfold shouldAutoPopulate at h
    by_cases hm : ev.matches = true
    · rw [hm] at h
      simp only [Bool.not_true, Bool.false_eq_true, if_false] at h
      cases hr : ev.ruleset with
      | none =>
        rw [hr] at h
        simp at h
      | some rs =>
        rw [hr] at h
        rw [shouldAutoPopulateLoop_iff] at h
        obtain ⟨fm, hfm, hex, hmiss⟩ := h
        refine ⟨hm, rs, rfl, fm, hfm, hex, ?_⟩
        rcases List.any_eq_true.mp hmiss with ⟨f, hf, hp⟩
        rw [Bool.and_eq_true] at hp
        exact ⟨f, hf, hp.1, by simpa using hp.2⟩
    · rw [Bool.not_eq_true] at hm
      rw [hm] at h
      simp at h
  · rintro ⟨hm, rs, hr, fm, hfm, hex, f, hf, hreq, habs⟩
    unfold shouldAutoPopulate
    rw [hm, hr]
    simp only [Bool.not_true, Bool.false_eq_true, if_false]
    rw [shouldAutoPopulateLoop_iff]
    refine ⟨fm, hfm, hex, ?_⟩
    refine List.any_eq_true.mpr ⟨f, hf, ?_⟩
    rw [Bool.and_eq_true]
    exact ⟨hreq, by simp [habs]⟩

/-!
C10: shape of the expected values in the invalid-trigger-fields state.
-/

theorem jsEq_str_inv {a : JsVal} {s : Str} (h : jsEq a (JsVal.str s) = true) :
    a = JsVal.str s := by
  cases a with
  | str t =>
    have ht : t = s := by simpa [jsEq] using h
    rw [ht]
  | num n => simp [jsEq] at h
  | bool b => simp [jsEq] at h
  | arr xs => simp [jsEq] at h
  | null => simp [jsEq] at h

theorem jsEq_num_inv {a : JsVal} {n : Int} (h : jsEq a (JsVal.num n) = true) :
    a = JsVal.num n := by
  cases a with
  | str t => simp [jsEq] at h
  | num m =>
    have hm : m = n := by simpa [jsEq] using h
    rw [hm]
  | bool b => simp [jsEq] at h
  | arr xs => simp [jsEq] at h
  | null => simp [jsEq] at h

theorem jsEq_bool_inv {a : JsVal} {b : Bool} (h : jsEq a (JsVal.bool b) = true) :
    a = JsVal.bool b := by
  cases a with
  | str t => simp [jsEq] at h
  | num m => simp [jsEq] at h
  | bool c =>
    have hc : c = b := by simpa [jsEq] using h
    rw [hc]
  | arr xs => simp [jsEq] at h
  | null => simp [jsEq] at h

/-- In the invalid-trigger state the metadata is present, the surfaced
ruleset's conditions all matched, and the trigger validity check failed. -/
theorem evaluateMetadata_invalid_state {fm? : Option Frontmatter} {rss : List Ruleset}
    {rs : Ruleset} (hm : (evaluateMetadata fm? rss).matches = false)
    (hr : (evaluateMetadata fm? rss).ruleset = some rs) :
    ∃ fm, fm? = some fm ∧ matchesMetadataConditions fm rs.metadata_match = true ∧
      hasValidTriggerFields fm rs = false := by
  cases fm? with
  | none => simp [evaluateMetadata] at hr
  | some fm =>
    cases hf : findMatchingRuleset fm rss with
    | none =>
      simp only [evaluateMetadata, hf] at hr
      cases hr
    | some rs' =>
      simp only [evaluateMetadata, hf] at hm hr
      by_cases hv : hasValidTriggerFields fm rs'
      · simp [hv] at hm
      · simp only [hv, Bool.not_false, if_true] at hr
        have hrs : rs' = rs := by simpa using hr
        subst hrs
        have hf' : rss.find? (fun r => matchesMetadataConditions fm r.metadata_match) =
            some rs' := hf
        have hp : matchesMetadataConditions fm rs'.metadata_match = true := by
          have hq := List.find?_some hf'
          simpa using hq
        exact ⟨fm, rfl, hp, by simpa using hv⟩

/-- For a condition entry whose lookup matched, validity can only fail when
the expected value is `null`, a whitespace-only string, or an array. -/
theorem triggerFieldValid_shape {fm : Frontmatter} {kv : Str × JsVal} {a : JsVal}
    (hl : jsLookup fm kv.1 = some a) (he : jsEq a kv.2 = true)
    (hv : triggerFieldValid fm kv = false) :
    kv.2 = JsVal.null ∨ (∃ s, kv.2 = JsVal.str s ∧ trimChars s = []) ∨
      ∃ xs, kv.2 = JsVal.arr xs := by
  cases hkv2 : kv.2 with
  | null => exact Or.inl rfl
  | arr xs => exact Or.inr (Or.inr ⟨xs, rfl⟩)
  | str s =>
    rw [hkv2] at he
    have ha : a = JsVal.str s := jsEq_str_inv he
    subst ha
    by_cases ht : (trimChars s).isEmpty
    · refine Or.inr (Or.inl ⟨s, rfl, ?_⟩)
      simpa [List.isEmpty_iff] using ht
    · exfalso
      rw [Bool.not_eq_true] at ht
      simp [triggerFieldValid, hl, hkv2, ht] at hv
  | num n =>
    exfalso
    rw [hkv2] at he
    have ha : a = JsVal.num n := jsEq_num_inv he
    subst ha
    simp [triggerFieldValid, hl, hkv2] at hv
  | bool b =>
    exfalso
    rw [hkv2] at he
    have ha : a = JsVal.bool b := jsEq_bool_inv he
    subst ha
    simp [triggerFieldValid, hl, hkv2] at hv

/-- Helper: the first half of C10 as a standalone statement. -/
theorem invalid_trigger_value_shape {fm? : Option Frontmatter} {rss : List Ruleset}
    {rs : Ruleset} (hm : (evaluateMetadata fm? rss).matches = false)
    (hr : (evaluateMetadata fm? rss).ruleset = some rs) :
    ∃ kv ∈ rs.metadata_match,
      kv.2 = JsVal.null ∨ (∃ s, kv.2 = JsVal.str s ∧ trimChars s = []) ∨
        ∃ xs, kv.2 = JsVal.arr xs := by
  obtain ⟨fm, -, hmatch, hvalid⟩ := evaluateMetadata_invalid_state hm hr
  obtain ⟨kv, hkv, hbadkv0⟩ := List.all_eq_false.mp hvalid
  have hbadkv : triggerFieldValid fm kv = false := by
    rw [Bool.not_eq_true] at hbadkv0
    exact hbadkv0
  have hcond := (List.all_eq_true.mp hmatch) kv hkv
  refine ⟨kv, hkv, ?_⟩
  cases hl : jsLookup fm kv.1 with
  | none =>
    rw [hl] at hcond
    simp at hcond
  | some a =>
    rw [hl] at hcond
    exact triggerFieldValid_shape hl hcond hbadkv

/-- C10: whenever evaluation reports `matches = false` together with a
surfaced ruleset (the invalid-trigger state), some condition entry's
expected value is `null`, an empty or whitespace-only string, or an array;
consequently a ruleset whose condition values are all non-whitespace
strings, numbers or booleans can never be surfaced in that state, for any
metadata. -/
theorem C10_invalid_trigger_reachability :
    (∀ (fm? : Option Frontmatter) (rss : List Ruleset) (rs : Ruleset),
        (evaluateMetadata fm? rss).matches = false →
        (evaluateMetadata fm? rss).ruleset = some rs →
        ∃ kv ∈ rs.metadata_match,
          kv.2 = JsVal.null ∨ (∃ s, kv.2 = JsVal.str s ∧ trimChars s = []) ∨
            ∃ xs, kv.2 = JsVal.arr xs) ∧
    (∀ (fm? : Option Frontmatter) (rss : List Ruleset) (rs : Ruleset),
        (∀ kv ∈ rs.metadata_match,
          (∃ s, kv.2 = JsVal.str s ∧ trimChars s ≠ []) ∨ (∃ n, kv.2 = JsVal.num n) ∨
            ∃ b, kv.2 = JsVal.bool b) →
        (evaluateMetadata fm? rss).ruleset = some rs →
        (evaluateMetadata fm? rss).matches = true) := by
  constructor
  · intro fm? rss rs hm hr
    exact invalid_trigger_value_shape hm hr
  · intro fm? rss rs hgood hr
    by_cases hm : (evaluateMetadata fm? rss).matches = true
    · exact hm
    · exfalso
      rw [Bool.not_eq_true] at hm
      obtain ⟨kv, hkv, hshape⟩ := invalid_trigger_value_shape hm hr
      rcases hgood kv hkv with ⟨s, hs, hts⟩ | ⟨n, hn⟩ | ⟨b, hb⟩
      · rcases hshape with h | ⟨s', hs', hts'⟩ | ⟨xs, hxs⟩
        · rw [hs] at h
          cases h
        · rw [hs] at hs'
          cases hs'
          exact hts hts'
        · rw [hs] at hxs
          cases hxs
      · rcases hshape with h | ⟨s', hs', -⟩ | ⟨xs, hxs⟩
        · rw [hn] at h
          cases h
        · rw [hn] at hs'
          cases hs'
        · rw [hn] at hxs
          cases hxs
      · rcases hshape with h | ⟨s', hs', -⟩ | ⟨xs, hxs⟩
        · rw [hb] at h
          cases h
        · rw [hb] at hs'
          cases hs'
        · rw [hb] at hxs
          cases hxs

/-- Ruleset fixture whose only condition expects the empty string. -/
def wsRuleset : Ruleset :=
  ⟨String.toList "WS", [(String.toList "type", JsVal.str [])], [], none, none⟩

/-- Frontmatter fixture realising the invalid-trigger state for `wsRuleset`. -/
def wsFrontmatter : Frontmatter := [(String.toList "type", JsVal.str [])]

/-- Witness for C10: the invalid-trigger state is actually reachable (with
an empty-string expected value), and the theorem produces the promised
condition entry. -/
theorem C10_witness :
    ∃ kv ∈ wsRuleset.metadata_match,
      kv.2 = JsVal.null ∨ (∃ s, kv.2 = JsVal.str s ∧ trimChars s = []) ∨
        ∃ xs, kv.2 = JsVal.arr xs :=
  C10_invalid_trigger_reachability.1 (some wsFrontmatter) [wsRuleset] wsRuleset rfl rfl

/-!
C6: collision resolution.
-/

/-- Run of the collision loop from an intermediate state: if the numbered
candidates up to `k` exist and candidate `k + 1` does not, the loop starting
at candidate `j` returns candidate `k + 1` (given enough fuel). -/
theorem handleCollisionsFuel_run (existsFn : Str → Bool) (desiredPath : Str) (k : Nat)
    (hk : ∀ i, i < k → existsFn (collisionStep desiredPath (i + 1)) = true)
    (hk1 : existsFn (collisionStep desiredPath (k + 1)) = false) :
    ∀ fuel j, 1 ≤ j → j ≤ k + 1 → k + 2 - j ≤ fuel →
      handleCollisionsFuel existsFn desiredPath fuel (collisionStep desiredPath j) (j + 1) =
        some (collisionStep desiredPath (k + 1)) := by
  intro fuel
  induction fuel with
  | zero =>
    intro j h1 h2 h3
    omega
  | succ fuel ih =>
    intro j h1 h2 h3
    by_cases hj : j = k + 1
    · subst hj
      simp only [handleCollisionsFuel, hk1, Bool.false_eq_true, if_false]
    · have hjk : j ≤ k := by omega
      have hexj : existsFn (collisionStep desiredPath j) = true := by
        have h5 := hk (j - 1) (by omega)
        rwa [show j - 1 + 1 = j by omega] at h5
      simp only [handleCollisionsFuel, hexj, if_true]
      exact ih (j + 1) (by omega) (by omega) (by omega)

/-- C6: when the desired path and the numbered candidates 1..k exist and
candidate k + 1 does not, collision resolution terminates (any fuel of at
least k + 2 existence checks suffices) and returns the candidate with
suffix k + 1; and the candidate construction appends the counter between
the basename and the `.md` extension. -/
theorem C6_collision_resolution (existsFn : Str → Bool) (desiredPath : Str) (k : Nat)
    (h0 : existsFn desiredPath = true)
    (hk : ∀ i, i < k → existsFn (collisionStep desiredPath (i + 1)) = true)
    (hk1 : existsFn (collisionStep desiredPath (k + 1)) = false) :
    (∀ fuel, k + 2 ≤ fuel →
      handleCollisions existsFn desiredPath fuel = some (collisionStep desiredPath (k + 1))) ∧
    (∀ c, collisionStep (String.toList "Areas/note.md") c =
      String.toList "Areas/note " ++ natToChars c ++ String.toList ".md") := by
  constructor
  · intro fuel hf
    cases fuel with
    | zero => omega
    | succ fuel =>
      unfold handleCollisions
      simp only [handleCollisionsFuel, h0, if_true]
      exact handleCollisionsFuel_run existsFn desiredPath k hk hk1 fuel 1 le_rfl
        (by omega) (by omega)
  · intro c
    rfl

/-- Existence predicate fixture: exactly the unsuffixed path and the first
numbered candidate exist. -/
def existsTwo : Str → Bool := fun p =>
  p == String.toList "a/b.md" || p == String.toList "a/b 1.md"

/-- Witness for C6 at `k = 1`: the loop returns the candidate with
suffix 2. -/
theorem C6_witness :
    handleCollisions existsTwo (String.toList "a/b.md") 3 =
      some (collisionStep (String.toList "a/b.md") 2) :=
  (C6_collision_resolution existsTwo (String.toList "a/b.md") 1 (by decide) (by decide)
    (by decide)).1 3 (by omega)

/-!
C2: what auto-population does to present, absent and present-but-empty
keys.
-/

theorem jsLookup_cons (kv : Str × JsVal) (fm : Frontmatter) (k : Str) :
    jsLookup (kv :: fm) k = if kv.1 == k then some kv.2 else jsLookup fm k := by
  by_cases h : kv.1 == k
  · simp [jsLookup, List.find?, h]
  · simp only [Bool.not_eq_true] at h
    simp [jsLookup, List.find?, h]

theorem jsLookup_setKey_same (fm : Frontmatter) (k : Str) (v : JsVal) :
    jsLookup (setKey fm k v) k = some v := by
  unfold setKey
  by_cases hc : containsKey fm k
  · rw [if_pos hc]
    unfold containsKey at hc
    induction fm with
    | nil => simp [jsLookup] at hc
    | cons kv rest ih =>
      by_cases hk : kv.1 == k
      · simp only [List.map_cons, if_pos hk]
        rw [jsLookup_cons]
        simp [hk]
      · simp only [Bool.not_eq_true] at hk
        simp only [List.map_cons, hk, if_false]
        rw [jsLookup_cons, if_neg (by simp [hk])]
        apply ih
        rw [jsLookup_cons, if_neg (by simp [hk])] at hc
        exact hc
  · rw [if_neg hc]
    unfold containsKey at hc
    induction fm with
    | nil => simp [jsLookup, List.find?]
    | cons kv rest ih =>
      rw [List.cons_append, jsLookup_cons]
      rw [jsLookup_cons] at hc
      by_cases hk : kv.1 == k
      · rw [if_pos hk] at hc
        simp at hc
      · simp only [Bool.not_eq_true] at hk
        rw [if_neg (by simp [hk])] at hc ⊢
        exact ih hc

theorem jsLookup_setKey_other (fm : Frontmatter) (k : Str) (v : JsVal) (k' : Str)
    (h : k' ≠ k) :
    jsLookup (setKey fm k v) k' = jsLookup fm k' := by
  unfold setKey
  by_cases hc : containsKey fm k
  · rw [if_pos hc]
    clear hc
    induction fm with
    | nil => rfl
    | cons kv rest ih =>
      simp only [List.map_cons]
      rw [jsLookup_cons, jsLookup_cons]
      by_cases hk : kv.1 == k
      · have hk1 : kv.1 = k := by simpa using hk
        have hne : ¬ k = k' := fun hkk => h hkk.symm
        rw [if_pos hk]
        have hk' : ((kv.1, v).1 == k') = false := by
          simp only []
          rw [hk1]
          simp [hne]
        have hk'2 : (kv.1 == k') = false := by
          rw [hk1]
          simp [hne]
        rw [if_neg (by simp [hk']), if_neg (by simp [hk'2])]
        exact ih
      · rw [if_neg hk]
        by_cases hk2 : kv.1 == k'
        · rw [if_pos hk2, if_pos hk2]
        · rw [if_neg hk2, if_neg hk2]
          exact ih
  · rw [if_neg hc]
    induction fm with
    | nil =>
      simp only [List.nil_append]
      rw [jsLookup_cons]
      have hne : ¬ k = k' := fun hkk => h hkk.symm
      have hkk' : (k == k') = false := by simp [hne]
      simp [jsLookup, hkk']
    | cons kv rest ih =>
      rw [List.cons_append, jsLookup_cons, jsLookup_cons]
      by_cases hk2 : kv.1 == k'
      · rw [if_pos hk2, if_pos hk2]
      · rw [if_neg hk2, if_neg hk2]
        apply ih
        unfold containsKey at hc ⊢
        rw [jsLookup_cons] at hc
        by_cases hk3 : kv.1 == k
        · rw [if_pos hk3] at hc
          simp at hc
        · rw [if_neg hk3] at hc
          exact hc

theorem jsLookup_foldl_frame (now : JsDate) (k : Str) :
    ∀ (fields : List MetadataField) (fm : Frontmatter),
      (∀ f ∈ fields, f.name ≠ k) →
      jsLookup (List.foldl (autoPopulateStep now) fm fields) k = jsLookup fm k := by
  intro fields
  induction fields with
  | nil => intro fm h; rfl
  | cons f rest ih =>
    intro fm h
    rw [List.foldl_cons]
    rw [ih (autoPopulateStep now fm f) (fun g hg => h g (List.mem_cons_of_mem f hg))]
    unfold autoPopulateStep
    by_cases hcond : (!containsKey fm f.name || isFieldEmpty (jsLookup fm f.name) f.type) = true
    · rw [if_pos hcond]
      exact jsLookup_setKey_other fm f.name (getDefaultValue f now) k
        (fun hkk => h f (List.mem_cons_self f rest) hkk.symm)
    · rw [if_neg hcond]

theorem autoPopulateStep_keep (now : JsDate) (acc : Frontmatter) (f : MetadataField)
    (h : (!containsKey acc f.name || isFieldEmpty (jsLookup acc f.name) f.type) = false) :
    autoPopulateStep now acc f = acc := by
  unfold autoPopulateStep
  rw [h]
  simp

theorem autoPopulateStep_set (now : JsDate) (acc : Frontmatter) (f : MetadataField)
    (h : (!containsKey acc f.name || isFieldEmpty (jsLookup acc f.name) f.type) = true) :
    autoPopulateStep now acc f = setKey acc f.name (getDefaultValue f now) := by
  unfold autoPopulateStep
  rw [if_pos h]

/-- C2 (amended): for declaration lists with unique field names,
auto-population keeps every declared field whose key is present with a
non-empty value; a declared field whose key is absent — or present but
empty for its type — is (re)written with its synthesized default (for an
empty array the default is again the empty array, so lists are unchanged;
an empty-string date is replaced by the synthesized date); keys not
declared by the ruleset are never touched. -/
theorem C2_amended (now : JsDate) (fm : Frontmatter) (rs : Ruleset)
    (hnodup : (rs.metadata.map (·.name)).Nodup) :
    (∀ f ∈ rs.metadata,
      (containsKey fm f.name = true →
        isFieldEmpty (jsLookup fm f.name) f.type = false →
        jsLookup (autoPopulateMetadata now fm rs) f.name = jsLookup fm f.name) ∧
      (containsKey fm f.name = false ∨ isFieldEmpty (jsLookup fm f.name) f.type = true →
        jsLookup (autoPopulateMetadata now fm rs) f.name = some (getDefaultValue f now))) ∧
    (∀ k, (∀ f ∈ rs.metadata, f.name ≠ k) →
      jsLookup (autoPopulateMetadata now fm rs) k = jsLookup fm k) := by
  constructor
  · intro f hf
    obtain ⟨pre, post, heq⟩ := List.append_of_mem hf
    have hmap : rs.metadata.map (·.name) =
        pre.map (·.name) ++ f.name :: post.map (·.name) := by
      rw [heq]
      simp
    rw [hmap] at hnodup
    rw [List.nodup_append] at hnodup
    obtain ⟨hn1, hn2, hdisj⟩ := hnodup
    have hnpre : ∀ g ∈ pre, g.name ≠ f.name := by
      intro g hg hgf
      exact hdisj (by rw [← hgf]; exact List.mem_map_of_mem _ hg)
        (List.mem_cons_self _ _)
    have hnpost : ∀ g ∈ post, g.name ≠ f.name := by
      intro g hg hgf
      rw [List.nodup_cons] at hn2
      exact hn2.1 (by rw [← hgf]; exact List.mem_map_of_mem _ hg)
    have hunfold : autoPopulateMetadata now fm rs =
        List.foldl (autoPopulateStep now)
          (autoPopulateStep now (List.foldl (autoPopulateStep now) fm pre) f) post := by
      unfold autoPopulateMetadata
      rw [heq, List.foldl_append, List.foldl_cons]
    have hacc : jsLookup (List.foldl (autoPopulateStep now) fm pre) f.name =
        jsLookup fm f.name :=
      jsLookup_foldl_frame now f.name pre fm hnpre
    have hacck : containsKey (List.foldl (autoPopulateStep now) fm pre) f.name =
        containsKey fm f.name := by
      unfold containsKey
      rw [hacc]
    constructor
    · intro hck hne
      have hcond : (!containsKey (List.foldl (autoPopulateStep now) fm pre) f.name ||
          isFieldEmpty (jsLookup (List.foldl (autoPopulateStep now) fm pre) f.name) f.type) =
            false := by
        rw [hacck, hck, hacc, hne]
        simp
      rw [hunfold, autoPopulateStep_keep now _ f hcond,
        jsLookup_foldl_frame now f.name post _ hnpost, hacc]
    · intro hor
      have hcond : (!containsKey (List.foldl (autoPopulateStep now) fm pre) f.name ||
          isFieldEmpty (jsLookup (List.foldl (autoPopulateStep now) fm pre) f.name) f.type) =
            true := by
        rw [hacck, hacc]
        cases hor with
        | inl h => rw [h]; simp
        | inr h => rw [h]; simp
      rw [hunfold, autoPopulateStep_set now _ f hcond,
        jsLookup_foldl_frame now f.name post _ hnpost,
        jsLookup_setKey_same]
  · intro k hk
    exact jsLookup_foldl_frame now k rs.metadata fm hk

/-- Frontmatter fixture carrying a present-but-empty date. -/
def emptyDateFm : Frontmatter :=
  [(String.toList "type", JsVal.str (String.toList "O3")),
   (String.toList "date", JsVal.str [])]

/-- C2 counterexample: a key that is present in the input with an
empty-for-its-type value (an empty-string date) does not keep its input
value — auto-population overwrites it with the synthesized date. -/
theorem C2_counterexample :
    containsKey emptyDateFm (String.toList "date") = true ∧
    jsLookup (autoPopulateMetadata jan15 emptyDateFm o3Ruleset) (String.toList "date") ≠
      jsLookup emptyDateFm (String.toList "date") := by
  refine ⟨by decide, ?_⟩
  intro h
  have h1 : (some (JsVal.str (String.toList "2024-01-15")) : Option JsVal) =
      some (JsVal.str []) := by
    calc (some (JsVal.str (String.toList "2024-01-15")) : Option JsVal)
        = jsLookup (autoPopulateMetadata jan15 emptyDateFm o3Ruleset)
            (String.toList "date") := by rfl
      _ = jsLookup emptyDateFm (String.toList "date") := h
      _ = some (JsVal.str []) := by rfl
  injection h1 with h2
  injection h2 with h3
  exact absurd h3 (by decide)

/-- Frontmatter fixture carrying a present, non-empty date. -/
def presentDateFm : Frontmatter :=
  [(String.toList "type", JsVal.str (String.toList "O3")),
   (String.toList "date", JsVal.str (String.toList "2024-01-15"))]

/-- The date field declared by `o3Ruleset`. -/
def o3DateField : MetadataField :=
  ⟨String.toList "date", FieldType.date, some (String.toList "YYYY-MM-DD"), true⟩

/-- Witness for C2: at a concrete input with a present non-empty date the
theorem applies and that key keeps its input value. -/
theorem C2_witness :
    jsLookup (autoPopulateMetadata jan15 presentDateFm o3Ruleset) (String.toList "date") =
      jsLookup presentDateFm (String.toList "date") :=
  ((C2_amended jan15 presentDateFm o3Ruleset (by decide)).1 o3DateField (by decide)).1
    (by decide) (by decide)

/-!
C1: emptiness of the synthesized defaults, per field type.
-/

/-- A string containing at least one non-whitespace character (the negation
of reading as empty under the `trim`-based string/date emptiness test). -/
def hasNonWs (s : Str) : Bool := s.any (fun c => !isJsWs c)

theorem natToCharsFuel_digits :
    ∀ (fuel n : Nat) (c : Char), c ∈ natToCharsFuel fuel n → isDigitChar c = true := by
  intro fuel
  induction fuel with
  | zero =>
    intro n c h
    simp [natToCharsFuel] at h
  | succ fuel ih =>
    intro n c h
    simp only [natToCharsFuel] at h
    split at h
    · rename_i hn
      rcases List.mem_singleton.mp h with rfl
      interval_cases n <;> decide
    · rcases List.mem_append.mp h with h1 | h1
      · exact ih _ _ h1
      · rcases List.mem_singleton.mp h1 with rfl
        have hm : n % 10 < 10 := Nat.mod_lt _ (by omega)
        interval_cases hmod : n % 10 <;> decide

theorem natToChars_digits {n : Nat} {c : Char} (h : c ∈ natToChars n) :
    isDigitChar c = true :=
  natToCharsFuel_digits (n + 1) n c h

theorem natToChars_ne_nil (n : Nat) : natToChars n ≠ [] := by
  unfold natToChars natToCharsFuel
  split <;> simp

theorem isDigitChar_not_ws {c : Char} (h : isDigitChar c = true) : isJsWs c = false := by
  have h1 : 48 ≤ c.toNat ∧ c.toNat ≤ 57 := by
    simpa [isDigitChar] using h
  simp only [isJsWs, Bool.or_eq_false_iff, decide_eq_false_iff_not]
  omega

theorem hasNonWs_of_digits {s : Str} (h : ∀ c ∈ s, isDigitChar c = true) (hne : s ≠ []) :
    hasNonWs s = true := by
  cases s with
  | nil => cases hne rfl
  | cons c cs =>
    have hc := isDigitChar_not_ws (h c (List.mem_cons_self c cs))
    simp [hasNonWs, hc]

theorem hasNonWs_natToChars (n : Nat) : hasNonWs (natToChars n) = true :=
  hasNonWs_of_digits (fun c hc => natToChars_digits hc) (natToChars_ne_nil n)

theorem pad2_digits {n : Nat} {c : Char} (h : c ∈ pad2 n) : isDigitChar c = true := by
  unfold pad2 at h
  split at h
  · rcases List.mem_append.mp h with h1 | h1
    · rcases List.eq_of_mem_replicate h1 with rfl
      decide
    · exact natToChars_digits h1
  · exact natToChars_digits h

theorem pad2_ne_nil (n : Nat) : pad2 n ≠ [] := by
  unfold pad2
  split
  · intro hx
    rcases List.append_eq_nil.mp hx with ⟨h1, h2⟩
    exact natToChars_ne_nil n h2
  · exact natToChars_ne_nil n

theorem hasNonWs_cons_tail {c : Char} {cs : Str} (h : hasNonWs cs = true) :
    hasNonWs (c :: cs) = true := by
  unfold hasNonWs at h ⊢
  rw [List.any_cons, h, Bool.or_true]

theorem hasNonWs_pad2 (n : Nat) : hasNonWs (pad2 n) = true :=
  hasNonWs_of_digits (fun c hc => pad2_digits hc) (pad2_ne_nil n)

theorem hasNonWs_append_left {a b : Str} (h : hasNonWs a = true) :
    hasNonWs (a ++ b) = true := by
  unfold hasNonWs at h ⊢
  rw [List.any_append, h, Bool.true_or]

theorem replaceFirst_hasNonWs :
    ∀ (s : Str) (pat rep : Str), hasNonWs rep = true → hasNonWs s = true →
      hasNonWs (replaceFirst s pat rep) = true := by
  intro s
  induction s with
  | nil =>
    intro pat rep hrep hs
    simp [hasNonWs] at hs
  | cons c cs ih =>
    intro pat rep hrep hs
    rw [replaceFirst]
    split
    · exact hasNonWs_append_left hrep
    · by_cases hc : isJsWs c
      · have hcs : hasNonWs cs = true := by
          unfold hasNonWs at hs ⊢
          rw [List.any_cons] at hs
          simp only [hc, Bool.not_true, Bool.false_or] at hs
          exact hs
        exact hasNonWs_cons_tail (ih pat rep hrep hcs)
      · unfold hasNonWs
        rw [List.any_cons]
        rw [Bool.not_eq_true] at hc
        rw [hc]
        simp

theorem formatDate_hasNonWs (d : JsDate) (fmt : Str) (h : hasNonWs fmt = true) :
    hasNonWs (formatDate d fmt) = true := by
  simp only [formatDate]
  apply replaceFirst_hasNonWs
  · split <;> decide
  apply replaceFirst_hasNonWs
  · exact hasNonWs_pad2 _
  apply replaceFirst_hasNonWs
  · exact hasNonWs_pad2 _
  apply replaceFirst_hasNonWs
  · exact hasNonWs_pad2 _
  apply replaceFirst_hasNonWs
  · exact hasNonWs_pad2 _
  apply replaceFirst_hasNonWs
  · exact hasNonWs_natToChars _
  exact h

theorem hasNonWs_toISODateString (d : JsDate) : hasNonWs (toISODateString d) = true := by
  unfold toISODateString
  apply hasNonWs_append_left
  apply hasNonWs_append_left
  apply hasNonWs_append_left
  apply hasNonWs_append_left
  exact hasNonWs_pad2 _

theorem mem_dropWhile_of_not {p : Char → Bool} {c : Char} (hc : p c = false) :
    ∀ {s : Str}, c ∈ s → c ∈ s.dropWhile p := by
  intro s
  induction s with
  | nil => intro h; cases h
  | cons a as ih =>
    intro h
    by_cases hpa : p a
    · rw [List.dropWhile_cons_of_pos hpa]
      rcases List.mem_cons.mp h with rfl | h1
      · rw [hpa] at hc
        cases hc
      · exact ih h1
    · rw [Bool.not_eq_true] at hpa
      rw [List.dropWhile_cons_of_neg (by simp [hpa])]
      exact h

theorem mem_trimChars_of_not_ws {c : Char} {s : Str} (hc : isJsWs c = false)
    (h : c ∈ s) : c ∈ trimChars s := by
  unfold trimChars
  rw [List.mem_reverse]
  apply mem_dropWhile_of_not hc
  rw [List.mem_reverse]
  exact mem_dropWhile_of_not hc h

theorem trimChars_not_empty_of_hasNonWs {s : Str} (h : hasNonWs s = true) :
    (trimChars s).isEmpty = false := by
  obtain ⟨c, hcs, hc⟩ := List.any_eq_true.mp h
  have hc' : isJsWs c = false := by simpa using hc
  have hmem := mem_trimChars_of_not_ws hc' hcs
  cases ht : trimChars s with
  | nil =>
    rw [ht] at hmem
    cases hmem
  | cons a as => rfl

theorem trimChars_ne_nil_of_hasNonWs {s : Str} (h : hasNonWs s = true) :
    trimChars s ≠ [] := by
  intro he
  have hne := trimChars_not_empty_of_hasNonWs h
  rw [he] at hne
  simp at hne

/-- C1 counterexample: the synthesized default for a `string` field is the
empty string, which the field-type validator reports as empty — refuting
the claim that only the list default reads as empty. -/
theorem C1_counterexample :
    ¬ (isFieldEmpty
        (some (getDefaultValue ⟨String.toList "note", FieldType.string, none, true⟩ jan15))
        FieldType.string = false) := by
  decide

/-- C1 (amended): the synthesized default reads as non-empty for `number`
and `boolean` fields, and for `date` fields whose format (when present and
non-empty) contains at least one non-whitespace character; it reads as
EMPTY both for `array` fields (default `[]`) and for `string` fields
(default `''`). -/
theorem C1_default_emptiness (field : MetadataField) (now : JsDate) :
    ((field.type = FieldType.number ∨ field.type = FieldType.boolean) →
      isFieldEmpty (some (getDefaultValue field now)) field.type = false) ∧
    (field.type = FieldType.date →
      (∀ fmt, field.format = some fmt → fmt = [] ∨ hasNonWs fmt = true) →
      isFieldEmpty (some (getDefaultValue field now)) field.type = false) ∧
    ((field.type = FieldType.string ∨ field.type = FieldType.array) →
      isFieldEmpty (some (getDefaultValue field now)) field.type = true) := by
  refine ⟨?_, ?_, ?_⟩
  · rintro (h | h) <;> simp [getDefaultValue, isFieldEmpty, h]
  · intro h hfmt
    simp only [getDefaultValue, isFieldEmpty, h]
    cases hf : field.format with
    | none =>
      simp only [jsTruthyStr, Bool.false_eq_true, if_false]
      exact trimChars_not_empty_of_hasNonWs (hasNonWs_toISODateString now)
    | some fmt =>
      by_cases hfe : fmt.isEmpty
      · have hnil : fmt = [] := by simpa [List.isEmpty_iff] using hfe
        simp [jsTruthyStr, hfe, hnil]
        exact trimChars_ne_nil_of_hasNonWs (hasNonWs_toISODateString now)
      · rcases hfmt fmt hf with hnil | hnw
        · rw [hnil] at hfe
          simp at hfe
        · simp only [jsTruthyStr, hfe, Bool.not_false, if_true, Option.getD_some]
          exact trimChars_not_empty_of_hasNonWs (formatDate_hasNonWs now fmt hnw)
  · rintro (h | h) <;> simp [getDefaultValue, isFieldEmpty, h, trimChars]

/-- Witness for C1 at the shipped date field with format `YYYY-MM-DD`: its
default reads as non-empty. -/
theorem C1_witness :
    isFieldEmpty (some (getDefaultValue o3DateField jan15)) o3DateField.type = false :=
  (C1_default_emptiness o3DateField jan15).2.1 rfl (by
    intro fmt hf
    injection hf with h
    exact Or.inr (by rw [← h]; decide))

/-!
C9: brace-freeness of resolved templates.
-/

/-- A string with no literal `{` or `}` character. -/
def braceFree (s : Str) : Bool := s.all (fun c => !(c = '{' || c = '}'))

mutual

/-- A value whose `String(...)` rendering can introduce no braces: every
string (at any nesting depth) is brace-free. -/
def braceFreeVal : JsVal → Bool
  | JsVal.str s => braceFree s
  | JsVal.num _ => true
  | JsVal.bool _ => true
  | JsVal.null => true
  | JsVal.arr xs => braceFreeList xs

/-- Pointwise `braceFreeVal` on a value list. -/
def braceFreeList : List JsVal → Bool
  | [] => true
  | x :: xs => braceFreeVal x && braceFreeList xs

end

/-- Templates in which every `{` and `}` character belongs to a placeholder
`{content}` whose content is non-empty and itself brace-free; follows the
same scan as the substitution driver. -/
def wellBracedFuel : Nat → Str → Bool
  | 0, s => s.isEmpty
  | fuel + 1, s =>
    match s with
    | [] => true
    | '{' :: rest =>
      (match rest.dropWhile (· ≠ '}') with
        | '}' :: tail =>
          !(rest.takeWhile (· ≠ '}')).isEmpty &&
            (rest.takeWhile (· ≠ '}')).all (fun c => !(c = '{')) &&
            wellBracedFuel fuel tail
        | _ => false)
    | c :: cs => !(c = '}') && wellBracedFuel fuel cs

/-- Entry point of the well-bracedness scan. -/
def wellBracedTemplate (s : Str) : Bool := wellBracedFuel s.length s

/-- The captured contents of the placeholder occurrences of a template, in
order, by the same scan as the substitution driver. -/
def placeholderContentsFuel : Nat → Str → List Str
  | 0, _ => []
  | fuel + 1, s =>
    match s with
    | [] => []
    | '{' :: rest =>
      (match rest.dropWhile (· ≠ '}') with
        | '}' :: tail =>
          if (rest.takeWhile (· ≠ '}')).isEmpty then placeholderContentsFuel fuel tail
          else rest.takeWhile (· ≠ '}') :: placeholderContentsFuel fuel tail
        | _ => [])
    | c :: cs => placeholderContentsFuel fuel cs

/-- Entry point of the placeholder-content scan. -/
def placeholderContents (s : Str) : List Str := placeholderContentsFuel s.length s

/-- Field name referenced by a placeholder content, as the callback computes
it: the first `:`-separated part, trimmed. -/
def placeholderFieldName (content : Str) : Str :=
  trimChars ((splitOnChar ':' content).headD [])

/-- C9 counterexample: the template consisting of the single character `}`
contains no placeholder occurrence at all — so every placeholder occurrence
vacuously names a present key — yet the resolved output is that same `}`,
which does contain a literal brace. -/
theorem C9_counterexample :
    placeholderContents (String.toList "\x7d") = [] ∧
    processPlaceholders (String.toList "\x7d") [] none = String.toList "\x7d" ∧
    ¬ braceFree (processPlaceholders (String.toList "\x7d") [] none) = true := by
  exact ⟨by decide, by decide, by decide⟩

theorem braceFree_of_mem {t s : Str} (h : braceFree s = true)
    (hsub : ∀ c ∈ t, c ∈ s ∨ c = ' ') : braceFree t = true := by
  apply List.all_eq_true.mpr
  intro c hc
  rcases hsub c hc with hm | rfl
  · exact (List.all_eq_true.mp h) c hm
  · decide

theorem mem_stripDoubleFuel {c : Char} :
    ∀ (fuel : Nat) (s : Str), c ∈ stripDoubleFuel fuel s → c ∈ s := by
  intro fuel
  induction fuel with
  | zero =>
    intro s h
    simpa [stripDoubleFuel] using h
  | succ fuel ih =>
    intro s h
    simp only [stripDoubleFuel] at h
    split at h
    · rename_i rest
      split at h
      · rename_i tail heq
        split at h
        · rcases List.mem_cons.mp h with rfl | h1
          · simp
          · have h2 := ih _ h1
            simp only [List.mem_cons] at h2 ⊢
            tauto
        · rcases List.mem_append.mp h with h1 | h1
          · have h2 : c ∈ rest := (List.takeWhile_sublist _).mem h1
            simp [List.mem_cons, h2]
          · have h2 := ih _ h1
            have h3 : c ∈ rest.dropWhile (· ≠ ']') := by
              rw [heq]
              simp [h2]
            have h4 : c ∈ rest := (List.dropWhile_sublist _).mem h3
            simp [List.mem_cons, h4]
      · rcases List.mem_cons.mp h with rfl | h1
        · simp
        · have h2 := ih _ h1
          simp only [List.mem_cons] at h2 ⊢
          tauto
    · rcases List.mem_cons.mp h with rfl | h1
      · simp
      · have h2 := ih _ h1
        simp [h2]
    · exact h

theorem mem_stripSingleFuel (op cl : Char) {c : Char} :
    ∀ (fuel : Nat) (s : Str), c ∈ stripSingleFuel op cl fuel s → c ∈ s := by
  intro fuel
  induction fuel with
  | zero =>
    intro s h
    simpa [stripSingleFuel] using h
  | succ fuel ih =>
    intro s h
    simp only [stripSingleFuel] at h
    split at h
    · exact h
    · rename_i a cs
      split at h
      · split at h
        · rename_i tail heq
          split at h
          · rcases List.mem_cons.mp h with rfl | h1
            · simp
            · have h2 := ih _ h1
              simp [h2]
          · rcases List.mem_append.mp h with h1 | h1
            · have h2 : c ∈ cs := (List.takeWhile_sublist _).mem h1
              simp [h2]
            · have h2 := ih _ h1
              have h3 : c ∈ cs.dropWhile (· ≠ cl) := by
                rw [heq]
                simp [h2]
              have h4 : c ∈ cs := (List.dropWhile_sublist _).mem h3
              simp [h4]
        · rcases List.mem_cons.mp h with rfl | h1
          · simp
          · have h2 := ih _ h1
            simp [h2]
      · rcases List.mem_cons.mp h with rfl | h1
        · simp
        · have h2 := ih _ h1
          simp [h2]

theorem mem_collapseWsFuel {c : Char} :
    ∀ (fuel : Nat) (s : Str), c ∈ collapseWsFuel fuel s → c ∈ s ∨ c = ' ' := by
  intro fuel
  induction fuel with
  | zero =>
    intro s h
    simp only [collapseWsFuel] at h
    exact Or.inl h
  | succ fuel ih =>
    intro s h
    simp only [collapseWsFuel] at h
    split at h
    · cases h
    · rename_i a cs
      split at h
      · rcases List.mem_cons.mp h with rfl | h1
        · exact Or.inr rfl
        · rcases ih _ h1 with h2 | h2
          · have h3 : c ∈ cs := (List.dropWhile_sublist _).mem h2
            exact Or.inl (List.mem_cons_of_mem a h3)
          · exact Or.inr h2
      · rcases List.mem_cons.mp h with rfl | h1
        · exact Or.inl (List.mem_cons_self _ _)
        · rcases ih _ h1 with h2 | h2
          · exact Or.inl (List.mem_cons_of_mem a h2)
          · exact Or.inr h2

theorem mem_trimChars {c : Char} {s : Str} (h : c ∈ trimChars s) : c ∈ s := by
  unfold trimChars at h
  rw [List.mem_reverse] at h
  have h1 := (List.dropWhile_sublist _).mem h
  rw [List.mem_reverse] at h1
  exact (List.dropWhile_sublist _).mem h1

theorem mem_splitOnChar {sep c : Char} :
    ∀ (s : Str) (p : Str), p ∈ splitOnChar sep s → c ∈ p → c ∈ s := by
  intro s
  induction s with
  | nil =>
    intro p hp hc
    simp only [splitOnChar, List.mem_singleton] at hp
    rw [hp] at hc
    cases hc
  | cons a as ih =>
    intro p hp hc
    simp only [splitOnChar] at hp
    split at hp
    · rcases List.mem_cons.mp hp with rfl | h1
      · cases hc
      · exact List.mem_cons_of_mem a (ih p h1 hc)
    · cases hsp : splitOnChar sep as with
      | nil =>
        rw [hsp] at hp
        rcases List.mem_singleton.mp hp with rfl
        rcases List.mem_singleton.mp hc with rfl
        exact List.mem_cons_self _ _
      | cons q qs =>
        rw [hsp] at hp
        rcases List.mem_cons.mp hp with rfl | h1
        · rcases List.mem_cons.mp hc with rfl | h2
          · exact List.mem_cons_self _ _
          · have hq : q ∈ splitOnChar sep as := by
              rw [hsp]
              exact List.mem_cons_self _ _
            exact List.mem_cons_of_mem a (ih q hq h2)
        · have hq : p ∈ splitOnChar sep as := by
            rw [hsp]
            exact List.mem_cons_of_mem q h1
          exact List.mem_cons_of_mem a (ih p hq hc)

theorem braceFree_stripSymbols {s : Str} (h : braceFree s = true) :
    braceFree (stripSymbols s) = true := by
  apply braceFree_of_mem h
  intro c hc
  unfold stripSymbols at hc
  have h1 := mem_trimChars hc
  rcases mem_collapseWsFuel _ _ h1 with h2 | h2
  · have h3 := List.mem_of_mem_filter h2
    have h4 := mem_stripSingleFuel '{' '}' _ _ h3
    have h5 := mem_stripSingleFuel '(' ')' _ _ h4
    have h6 := mem_stripSingleFuel '[' ']' _ _ h5
    exact Or.inl (mem_stripDoubleFuel _ _ h6)
  · exact Or.inr h2

theorem char_not_brace {c : Char} (h : isDigitChar c = true) :
    (!(c = '{' || c = '}')) = true := by
  by_cases hbrace : c = '{' ∨ c = '}'
  · rcases hbrace with rfl | rfl <;> exact absurd h (by decide)
  · push_neg at hbrace
    simp [hbrace.1, hbrace.2]

theorem braceFree_of_digits {s : Str} (h : ∀ c ∈ s, isDigitChar c = true) :
    braceFree s = true := by
  apply List.all_eq_true.mpr
  intro c hc
  exact char_not_brace (h c hc)

theorem braceFree_natToChars (n : Nat) : braceFree (natToChars n) = true :=
  braceFree_of_digits (fun c hc => natToChars_digits hc)

theorem braceFree_pad2 (n : Nat) : braceFree (pad2 n) = true :=
  braceFree_of_digits (fun c hc => pad2_digits hc)

theorem braceFree_intToChars (i : Int) : braceFree (intToChars i) = true := by
  unfold intToChars
  split
  · apply List.all_eq_true.mpr
    intro c hc
    rcases List.mem_cons.mp hc with rfl | h1
    · decide
    · exact char_not_brace (natToChars_digits h1)
  · exact braceFree_natToChars _

theorem braceFree_append {a b : Str} (ha : braceFree a = true) (hb : braceFree b = true) :
    braceFree (a ++ b) = true := by
  unfold braceFree at ha hb ⊢
  rw [List.all_append, ha, hb]
  rfl

theorem braceFree_cons_parts {c : Char} {cs : Str} (h : braceFree (c :: cs) = true) :
    (!(c = '{' || c = '}')) = true ∧ braceFree cs = true := by
  unfold braceFree at h ⊢
  rw [List.all_cons, Bool.and_eq_true] at h
  exact h

theorem braceFree_replaceFirst :
    ∀ (s pat rep : Str), braceFree rep = true → braceFree s = true →
      braceFree (replaceFirst s pat rep) = true := by
  intro s
  induction s with
  | nil =>
    intro pat rep hrep hs
    rw [replaceFirst]
    exact hs
  | cons c cs ih =>
    intro pat rep hrep hs
    rw [replaceFirst]
    split
    · apply braceFree_append hrep
      exact braceFree_of_mem hs (fun d hd => Or.inl ((List.drop_sublist _ _).mem hd))
    · obtain ⟨h1, h2⟩ := braceFree_cons_parts hs
      unfold braceFree
      rw [List.all_cons, h1]
      have := ih pat rep hrep h2
      unfold braceFree at this
      rw [this]
      rfl

theorem braceFree_formatDate (d : JsDate) (fmt : Str) (h : braceFree fmt = true) :
    braceFree (formatDate d fmt) = true := by
  simp only [formatDate]
  apply braceFree_replaceFirst
  · split <;> decide
  apply braceFree_replaceFirst
  · exact braceFree_pad2 _
  apply braceFree_replaceFirst
  · exact braceFree_pad2 _
  apply braceFree_replaceFirst
  · exact braceFree_pad2 _
  apply braceFree_replaceFirst
  · exact braceFree_pad2 _
  apply braceFree_replaceFirst
  · exact braceFree_natToChars _
  exact h

theorem braceFree_joinWith {sep : Str} (hsep : braceFree sep = true) :
    ∀ parts : List Str, (∀ t ∈ parts, braceFree t = true) →
      braceFree (joinWith sep parts) = true := by
  intro parts
  induction parts with
  | nil =>
    intro h
    rfl
  | cons x xs ih =>
    intro h
    cases xs with
    | nil =>
      simpa [joinWith] using h x (List.mem_singleton_self x)
    | cons y ys =>
      simp only [joinWith]
      apply braceFree_append
      apply braceFree_append
      · exact h x (List.mem_cons_self _ _)
      · exact hsep
      · exact ih (fun t ht => h t (List.mem_cons_of_mem x ht))

mutual

theorem braceFree_jsToStringVal :
    ∀ (v : JsVal), braceFreeVal v = true → braceFree (jsToStringVal v) = true
  | JsVal.str s, h => by simpa [jsToStringVal, braceFreeVal] using h
  | JsVal.num n, _ => by simpa [jsToStringVal] using braceFree_intToChars n
  | JsVal.bool b, _ => by cases b <;> decide
  | JsVal.null, _ => by decide
  | JsVal.arr xs, h => by
    simp only [jsToStringVal]
    apply braceFree_joinWith (by decide)
    exact braceFree_jsToStringList xs (by simpa [braceFreeVal] using h)

theorem braceFree_jsToStringList :
    ∀ (xs : List JsVal), braceFreeList xs = true →
      ∀ t ∈ jsToStringList xs, braceFree t = true
  | [] => by
    intro h t ht
    simp [jsToStringList] at ht
  | JsVal.null :: xs => by
    intro h t ht
    rw [braceFreeList, Bool.and_eq_true] at h
    simp only [jsToStringList] at ht
    rcases List.mem_cons.mp ht with heq | h1
    · rw [heq]
      rfl
    · exact braceFree_jsToStringList xs h.2 t h1
  | JsVal.str s :: xs => by
    intro h t ht
    rw [braceFreeList, Bool.and_eq_true] at h
    simp only [jsToStringList] at ht
    rcases List.mem_cons.mp ht with heq | h1
    · rw [heq]
      exact braceFree_jsToStringVal _ h.1
    · exact braceFree_jsToStringList xs h.2 t h1
  | JsVal.num n :: xs => by
    intro h t ht
    rw [braceFreeList, Bool.and_eq_true] at h
    simp only [jsToStringList] at ht
    rcases List.mem_cons.mp ht with heq | h1
    · rw [heq]
      exact braceFree_jsToStringVal _ h.1
    · exact braceFree_jsToStringList xs h.2 t h1
  | JsVal.bool b :: xs => by
    intro h t ht
    rw [braceFreeList, Bool.and_eq_true] at h
    simp only [jsToStringList] at ht
    rcases List.mem_cons.mp ht with heq | h1
    · rw [heq]
      exact braceFree_jsToStringVal _ h.1
    · exact braceFree_jsToStringList xs h.2 t h1
  | JsVal.arr ys :: xs => by
    intro h t ht
    rw [braceFreeList, Bool.and_eq_true] at h
    simp only [jsToStringList] at ht
    rcases List.mem_cons.mp ht with heq | h1
    · rw [heq]
      exact braceFree_jsToStringVal _ h.1
    · exact braceFree_jsToStringList xs h.2 t h1

end

theorem braceFree_formatDateValue {v : JsVal} {fmt : Str} (hv : braceFreeVal v = true)
    (hf : braceFree fmt = true) : braceFree (formatDateValue v fmt) = true := by
  cases v with
  | str s =>
    simp only [formatDateValue]
    split
    · exact braceFree_formatDate _ fmt hf
    · simpa [braceFreeVal] using hv
  | num n => exact braceFree_jsToStringVal (JsVal.num n) hv
  | bool b => exact braceFree_jsToStringVal (JsVal.bool b) hv
  | null => exact braceFree_jsToStringVal JsVal.null hv
  | arr xs => exact braceFree_jsToStringVal (JsVal.arr xs) hv

theorem braceFreeVal_of_lookup {fm : Frontmatter} {k : Str} {v : JsVal}
    (hfm : ∀ kv ∈ fm, braceFreeVal kv.2 = true) (h : jsLookup fm k = some v) :
    braceFreeVal v = true := by
  unfold jsLookup at h
  cases hf : fm.find? (fun kv => kv.1 == k) with
  | none =>
    rw [hf] at h
    cases h
  | some kv =>
    rw [hf] at h
    have hkv : kv.2 = v := by simpa using h
    rw [← hkv]
    exact hfm kv (List.mem_of_find?_eq_some hf)

theorem dropWhile_head_not {p : Char → Bool} :
    ∀ {s : Str} {d : Char} {tail : Str}, s.dropWhile p = d :: tail → p d = false := by
  intro s
  induction s with
  | nil =>
    intro d tail h
    simp [List.dropWhile] at h
  | cons a as ih =>
    intro d tail h
    by_cases hpa : p a
    · rw [List.dropWhile_cons_of_pos hpa] at h
      exact ih h
    · rw [Bool.not_eq_true] at hpa
      rw [List.dropWhile_cons_of_neg (by simp [hpa])] at h
      rw [List.cons.injEq] at h
      rw [← h.1]
      exact hpa

theorem braceFree_modifier {content : Str} (hcontent : braceFree content = true) :
    braceFree (((((splitOnChar ':' content).drop 1).head?).map trimChars).getD []) = true := by
  cases hh : ((splitOnChar ':' content).drop 1).head? with
  | none => rfl
  | some m =>
    show braceFree (trimChars m) = true
    apply braceFree_of_mem hcontent
    intro c hc
    left
    have h1 : c ∈ m := mem_trimChars hc
    have hm : m ∈ (splitOnChar ':' content).drop 1 := by
      cases hl : (splitOnChar ':' content).drop 1 with
      | nil =>
        rw [hl] at hh
        cases hh
      | cons q qs =>
        rw [hl, List.head?_cons] at hh
        have hqm : q = m := by simpa using hh
        rw [← hqm]
        exact List.mem_cons_self _ _
    have hm2 : m ∈ splitOnChar ':' content := (List.drop_sublist _ _).mem hm
    exact mem_splitOnChar content m hm2 h1

set_option maxHeartbeats 1000000 in
theorem braceFree_placeholderValue (fm : Frontmatter) (content matchText : Str)
    (hcontent : braceFree content = true)
    (hnc : placeholderFieldName content ≠ String.toList "created")
    (hck : containsKey fm (placeholderFieldName content) = true)
    (hfm : ∀ kv ∈ fm, braceFreeVal kv.2 = true) :
    braceFree (placeholderValue fm none content matchText) = true := by
  have hnc' : ¬ trimChars ((splitOnChar ':' content).headD []) = String.toList "created" := hnc
  have hck' : containsKey fm (trimChars ((splitOnChar ':' content).headD [])) = true := hck
  have hmod := braceFree_modifier hcontent
  simp only [placeholderValue]
  rw [if_neg hnc']
  split
  · rename_i hnone
    unfold containsKey at hck'
    rw [hnone] at hck'
    cases hck'
  · rename_i value hsome
    have hval : braceFreeVal value = true := braceFreeVal_of_lookup hfm hsome
    generalize hOpt :
      Option.map trimChars ((splitOnChar ':' content).drop 1).head? = modOpt
    rw [hOpt] at hmod
    split
    · exact braceFree_formatDateValue hval hmod
    · split
      · rename_i elems
        apply braceFree_joinWith (by decide)
        intro t ht
        rcases List.mem_map.mp ht with ⟨sv, hsv, hmap⟩
        rw [← hmap]
        have hsvb : braceFree sv = true :=
          braceFree_jsToStringList elems (by simpa [braceFreeVal] using hval) sv hsv
        split
        · exact braceFree_stripSymbols hsvb
        · exact hsvb
      · split
        · exact braceFree_stripSymbols (braceFree_jsToStringVal _ hval)
        · exact braceFree_jsToStringVal _ hval

set_option maxHeartbeats 1000000 in
theorem processGoFuel_braceFree (fm : Frontmatter)
    (hfm : ∀ kv ∈ fm, braceFreeVal kv.2 = true) :
    ∀ (fuel : Nat) (s : Str), s.length ≤ fuel →
      wellBracedFuel fuel s = true →
      (∀ c ∈ placeholderContentsFuel fuel s,
        placeholderFieldName c ≠ String.toList "created" ∧
          containsKey fm (placeholderFieldName c) = true) →
      braceFree (processGoFuel fm none fuel s) = true := by
  intro fuel
  induction fuel with
  | zero =>
    intro s hlen hwb hnames
    have hs : s = [] := List.length_eq_zero.mp (by omega)
    subst hs
    rfl
  | succ fuel ih =>
    intro s hlen hwb hnames
    cases s with
    | nil =>
      simp only [processGoFuel]
      rfl
    | cons c cs =>
      by_cases hc : c = '{'
      · subst hc
        cases hdw : cs.dropWhile (fun x => !decide (x = '}')) with
        | nil =>
          simp [wellBracedFuel, hdw] at hwb
        | cons d tail =>
          have hd' : d = '}' := by
            have hnd := dropWhile_head_not hdw
            simpa using hnd
          subst hd'
          by_cases hemp : (cs.takeWhile (fun x => !decide (x = '}'))).isEmpty
          · simp [wellBracedFuel, hdw, hemp] at hwb
          · rw [Bool.not_eq_true] at hemp
            simp only [processGoFuel, ne_eq, decide_not, hdw, hemp, Bool.false_eq_true,
              if_false]
            simp only [wellBracedFuel, ne_eq, decide_not, hdw] at hwb
            rw [Bool.and_eq_true, Bool.and_eq_true] at hwb
            obtain ⟨⟨hne2, hnolb⟩, hwbtail⟩ := hwb
            simp only [placeholderContentsFuel, ne_eq, decide_not, hdw, hemp,
              Bool.false_eq_true, if_false] at hnames
            have hcontent :
                braceFree (cs.takeWhile (fun x => !decide (x = '}'))) = true := by
              apply List.all_eq_true.mpr
              intro ch hch
              have h1 : ch ≠ '}' := by
                have := List.mem_takeWhile_imp hch
                simpa using this
              have h2 : ¬ ch = '{' := by
                have := (List.all_eq_true.mp hnolb) ch hch
                simpa using this
              simp [h1, h2]
            apply braceFree_append
            · exact braceFree_placeholderValue fm _ _ hcontent
                (hnames _ (List.mem_cons_self _ _)).1
                (hnames _ (List.mem_cons_self _ _)).2 hfm
            · apply ih tail ?_ hwbtail
                (fun c hcm => hnames c (List.mem_cons_of_mem _ hcm))
              have hlen2 : (cs.dropWhile (fun x => !decide (x = '}'))).length ≤ cs.length :=
                dropWhile_length_le _ cs
              rw [hdw] at hlen2
              simp only [List.length_cons] at hlen hlen2
              omega
      · simp only [processGoFuel]
        simp only [wellBracedFuel] at hwb
        rw [Bool.and_eq_true] at hwb
        simp only [placeholderContentsFuel] at hnames
        unfold braceFree
        rw [List.all_cons, Bool.and_eq_true]
        constructor
        · have h1 : ¬ c = '}' := by
            have := hwb.1
            simpa using this
          simp [hc, h1]
        · have := ih cs (by simp only [List.length_cons] at hlen; omega) hwb.2 hnames
          unfold braceFree at this
          exact this

/-- C9 (amended): when every brace in the template belongs to a placeholder
`{content}` whose content is non-empty and brace-free, every placeholder's
field name is a key of the mapping other than `created`, and every value in
the mapping renders without braces, the resolved output contains no literal
`{` or `}` character. -/
theorem C9_brace_free (t : Str) (fm : Frontmatter)
    (hwb : wellBracedTemplate t = true)
    (hfm : ∀ kv ∈ fm, braceFreeVal kv.2 = true)
    (hnames : ∀ c ∈ placeholderContents t,
      placeholderFieldName c ≠ String.toList "created" ∧
        containsKey fm (placeholderFieldName c) = true) :
    braceFree (processPlaceholders t fm none) = true := by
  unfold processPlaceholders
  split
  · rfl
  · exact processGoFuel_braceFree fm hfm t.length t le_rfl hwb hnames

/-- Witness for C9: resolving the template made of a single placeholder for
a present, brace-free field yields a brace-free output. -/
theorem C9_witness :
    braceFree (processPlaceholders (String.toList "{a}")
      [(String.toList "a", JsVal.str (String.toList "x"))] none) = true :=
  C9_brace_free (String.toList "{a}")
    [(String.toList "a", JsVal.str (String.toList "x"))]
    (by decide) (by decide) (by decide)
